import Mathlib

/-!
# Translator (components/translator.js)

A shallow embedding of the `Translator` class and the properties of its
methods.

Modelling conventions.

* A JavaScript string is the list of its UTF-16 code units (`JSString`); all
  offsets (`start`, `end`, `match.index`) count code units, as in the source.
* `Option` results: `none` stands for "no value is returned" (the scanning loop
  ran out of the iteration budget `fuel`, or an exception was thrown).
* The four dictionary modules required at the top of the source are data that
  the class reads; they are a parameter (`Dictionaries`), each one given as the
  list that `Object.entries` produces for it.
* Upper-casing of code units outside ASCII is the host's Unicode table; it is a
  parameter `tbl`. On ASCII the mapping is fixed (`a`-`z` to `A`-`Z`).
* Patterns are the ones the source builds: they have no `u` flag, so matching works on
  code units, `\b` knows the ASCII word characters only, and under the `i` flag two
  code units match when their canonical forms are equal.
* `Array.prototype.sort` is stable.
-/

namespace Translator

/-- A JavaScript string: the list of its UTF-16 code units. -/
abbrev JSString := List Nat

/-- The code units of a string literal whose characters are in the Basic Multilingual
Plane (used to write the constants of the source and the examples). -/
def str (s : String) : JSString := s.data.map Char.toNat

/-! ## Character classes and case mapping -/

/-- `String.prototype.toUpperCase` on a one-unit string: fixed on ASCII, given by
the host table `tbl` elsewhere. -/
def toUpperCase (tbl : Nat → List Nat) (c : Nat) : List Nat :=
  if c < 128 then (if 97 ≤ c ∧ c ≤ 122 then [c - 32] else [c]) else tbl c

/-- The `Canonicalize` operation of a case-insensitive, non-unicode pattern. -/
def canonicalize (tbl : Nat → List Nat) (c : Nat) : Nat :=
  match toUpperCase tbl c with
  | [u] => if 128 ≤ c ∧ u < 128 then c else u
  | _ => c

/-- Word characters of `\b`: `[A-Za-z0-9_]`. -/
def isWordChar (c : Nat) : Bool :=
  (65 ≤ c && c ≤ 90) || (97 ≤ c && c ≤ 122) || (48 ≤ c && c ≤ 57) || c == 95

/-- The members of `\s`: white space and line terminators. -/
def whiteSpaceUnits : List Nat :=
  [9, 10, 11, 12, 13, 32, 160, 5760, 8192, 8193, 8194, 8195, 8196, 8197, 8198,
   8199, 8200, 8201, 8202, 8232, 8233, 8239, 8287, 12288, 65279]

/-- A pattern element that consumes exactly one code unit. -/
inductive Atom where
  | char (c : Nat)
  | digit
  | whiteSpace
  | range (lo hi : Nat)
  deriving DecidableEq, Repr

/-- The set of code units an atom denotes. -/
def Atom.units : Atom → List Nat
  | .char c => [c]
  | .digit => List.range' 48 10
  | .whiteSpace => whiteSpaceUnits
  | .range lo hi => List.range' lo (hi + 1 - lo)

/-- Whether an atom accepts the code unit `c`; under the `i` flag the comparison
is made on canonicalized units. -/
def Atom.accepts (tbl : Nat → List Nat) (ignoreCase : Bool) (a : Atom) (c : Nat) : Bool :=
  if ignoreCase then a.units.any (fun m => canonicalize tbl m == canonicalize tbl c)
  else a.units.contains c

/-- A pattern is a sequence of nodes. -/
inductive Node where
  | wordBoundary
  | atom (a : Atom)
  | lookahead (body : List Atom)
  | repeat (lo hi : Nat) (a : Atom)
  | groupOpen
  | groupClose
  deriving DecidableEq, Repr

/-- A compiled regular expression. -/
structure RegExp where
  nodes : List Node
  ignoreCase : Bool
  deriving DecidableEq, Repr

/-- The result of one successful match attempt: where it ends and the positions
at which capture groups were opened and closed (most recent first). -/
structure MatchState where
  endIndex : Nat
  opens : List Nat
  closes : List Nat
  deriving DecidableEq, Repr

/-- The `\b` assertion at offset `pos`. -/
def isWordBoundary (text : JSString) (pos : Nat) : Bool :=
  let a := match pos with
    | 0 => false
    | p + 1 => text[p]?.any isWordChar
  let b := text[pos]?.any isWordChar
  a != b

/-- The atoms accept the code units of `text` from offset `pos` on. -/
def atomsAccept (tbl : Nat → List Nat) (ignoreCase : Bool) (text : JSString) :
    List Atom → Nat → Bool
  | [], _ => true
  | a :: rest, pos =>
    text[pos]?.any (a.accepts tbl ignoreCase) && atomsAccept tbl ignoreCase text rest (pos + 1)

/-- The atom accepts each of the `k` code units from offset `pos` on. -/
def runAccepts (tbl : Nat → List Nat) (ignoreCase : Bool) (text : JSString) (a : Atom) :
    Nat → Nat → Bool
  | 0, _ => true
  | k + 1, pos =>
    text[pos]?.any (a.accepts tbl ignoreCase) && runAccepts tbl ignoreCase text a k (pos + 1)

/-- The backtracking matcher: match the nodes against `text` starting at `pos`. -/
def matchNodes (tbl : Nat → List Nat) (ignoreCase : Bool) (text : JSString) :
    List Node → Nat → List Nat → List Nat → Option MatchState
  | [], pos, opens, closes => some ⟨pos, opens, closes⟩
  | .wordBoundary :: rest, pos, opens, closes =>
    if isWordBoundary text pos then matchNodes tbl ignoreCase text rest pos opens closes else none
  | .atom a :: rest, pos, opens, closes =>
    if text[pos]?.any (a.accepts tbl ignoreCase) then
      matchNodes tbl ignoreCase text rest (pos + 1) opens closes
    else none
  | .lookahead body :: rest, pos, opens, closes =>
    if atomsAccept tbl ignoreCase text body pos then
      matchNodes tbl ignoreCase text rest pos opens closes
    else none
  | .repeat lo hi a :: rest, pos, opens, closes =>
    (List.range (hi + 1 - lo)).findSome? (fun j =>
      if runAccepts tbl ignoreCase text a (hi - j) pos then
        matchNodes tbl ignoreCase text rest (pos + (hi - j)) opens closes
      else none)
  | .groupOpen :: rest, pos, opens, closes =>
    matchNodes tbl ignoreCase text rest pos (pos :: opens) closes
  | .groupClose :: rest, pos, opens, closes =>
    matchNodes tbl ignoreCase text rest pos opens (pos :: closes)

/-- Try the offsets `i, i+1, ...` (`count` of them) and stop at the first match. -/
def scanFrom (tbl : Nat → List Nat) (re : RegExp) (text : JSString) :
    Nat → Nat → Option (Nat × MatchState)
  | 0, _ => none
  | count + 1, i =>
    match matchNodes tbl re.ignoreCase text re.nodes i [] [] with
    | some st => some (i, st)
    | none => scanFrom tbl re text count (i + 1)

/-- The method `regex.exec(text)` of a global regular expression whose `lastIndex` is
`lastIndex`: the leftmost match at or after `lastIndex`, as (index, state). -/
def exec (tbl : Nat → List Nat) (re : RegExp) (text : JSString) (lastIndex : Nat) :
    Option (Nat × MatchState) :=
  if text.length < lastIndex then none
  else scanFrom tbl re text (text.length + 1 - lastIndex) lastIndex

/-- The slice `text.slice(i, j)` for `i ≤ j`. -/
def slice (text : JSString) (i j : Nat) : JSString := (text.drop i).take (j - i)

/-- A candidate replacement (`{start, end, original, replacement}`). -/
structure Span where
  start : Nat
  end_ : Nat
  original : JSString
  replacement : JSString
  deriving DecidableEq, Repr

/-- The loop `while ((match = regex.exec(text)) !== null) { translations.push(...) }`,
with at most `fuel` calls of `exec`; `mk` builds the pushed object from the match. -/
def execLoop (tbl : Nat → List Nat) (re : RegExp) (text : JSString)
    (mk : Nat → MatchState → Option Span) : Nat → Nat → Option (List Span)
  | 0, _ => none
  | fuel + 1, lastIndex =>
    match exec tbl re text lastIndex with
    | none => some []
    | some (i, st) =>
      match mk i st, execLoop tbl re text mk fuel st.endIndex with
      | some s, some rest => some (s :: rest)
      | _, _ => none

/-! ## Building the patterns -/

/-- The syntax characters `. * + ? ^ $ { } ( ) | [ ] \` of the class in `escapeRegex`. -/
def syntaxUnits : List Nat := [46, 42, 43, 63, 94, 36, 123, 125, 40, 41, 124, 91, 93, 92]

/-- The method `escapeRegex(string)`: `string.replace(/[.*+?^${}()|[\]\\]/g, '\\$&')`. -/
def escapeRegex (string : JSString) : JSString :=
  string.flatMap (fun c => if c ∈ syntaxUnits then [92, c] else [c])

/-- The pattern source of a run of literal characters, as `new RegExp` reads it: a
backslash followed by a syntax character, or a character that is not a syntax
character, stands for that character. Any other source is outside this
fragment (`none`). -/
def parseLiterals : List Nat → Option (List Node)
  | [] => some []
  | c :: rest =>
    if c = 92 then
      match rest with
      | [] => none
      | e :: rest' =>
        if e ∈ syntaxUnits then (parseLiterals rest').map (fun ns => Node.atom (.char e) :: ns)
        else none
    else if c ∈ syntaxUnits then none
    else (parseLiterals rest).map (fun ns => Node.atom (.char c) :: ns)

/-- The expression ``new RegExp(`\\b${this.escapeRegex(american)}\\b`, 'gi')``. -/
def termRegExp (american : JSString) : Option RegExp :=
  (parseLiterals (escapeRegex american)).map
    (fun ns => ⟨[Node.wordBoundary] ++ ns ++ [Node.wordBoundary], true⟩)

/-- The expression ``new RegExp(`\\b${this.escapeRegex(american)}(?=\\s[A-Z])`, 'gi')``. -/
def titleRegExp (american : JSString) : Option RegExp :=
  (parseLiterals (escapeRegex american)).map
    (fun ns => ⟨[Node.wordBoundary] ++ ns ++ [Node.lookahead [.whiteSpace, .range 65 90]], true⟩)

/-- The literal `/\b(\d{1,2}):(\d{2})\b/g`. -/
def americanTimeRegExp : RegExp :=
  ⟨[.wordBoundary, .groupOpen, .repeat 1 2 .digit, .groupClose, .atom (.char 58),
    .groupOpen, .repeat 2 2 .digit, .groupClose, .wordBoundary], false⟩

/-- The literal `/\b(\d{1,2})\.(\d{2})\b/g`. -/
def britishTimeRegExp : RegExp :=
  ⟨[.wordBoundary, .groupOpen, .repeat 1 2 .digit, .groupClose, .atom (.char 46),
    .groupOpen, .repeat 2 2 .digit, .groupClose, .wordBoundary], false⟩

/-- The capture `match[k]` (`k = 1, 2, ...`) of a match with `n` groups. -/
def capture (text : JSString) (st : MatchState) (n k : Nat) : JSString :=
  slice text (st.opens.getD (n - k) 0) (st.closes.getD (n - k) 0)

/-! ## The matchers -/

/-- A dictionary module, as the list `Object.entries(dictionary)`. -/
abbrev Dict := List (JSString × JSString)

/-- The object pushed by `translateTerms` for a match. -/
def termSpan (text british : JSString) (i : Nat) (st : MatchState) : Option Span :=
  some ⟨i, st.endIndex, slice text i st.endIndex, british⟩

/-- The method `translateTerms(text, dictionary)`. -/
def translateTerms (tbl : Nat → List Nat) (fuel : Nat) (text : JSString) :
    Dict → Option (List Span)
  | [] => some []
  | (american, british) :: rest =>
    match termRegExp american with
    | none => none
    | some re =>
      match execLoop tbl re text (termSpan text british) fuel 0,
            translateTerms tbl fuel text rest with
      | some here, some later => some (here ++ later)
      | _, _ => none

/-- The expression `replacement.charAt(0).toUpperCase() + replacement.slice(1)`. -/
def capitalize (tbl : Nat → List Nat) (replacement : JSString) : JSString :=
  match replacement with
  | [] => []
  | r :: rs => toUpperCase tbl r ++ rs

/-- The object pushed by `translateTitles` for a match; `match[0][0]` of an empty
match is `undefined`, whose `toUpperCase` throws. -/
def titleSpan (tbl : Nat → List Nat) (text british : JSString) (i : Nat) (st : MatchState) :
    Option Span :=
  match slice text i st.endIndex with
  | [] => none
  | c :: m =>
    let replacement := if [c] = toUpperCase tbl c then capitalize tbl british else british
    some ⟨i, st.endIndex, c :: m, replacement⟩

/-- The method `translateTitles(text, titlesDict)`. -/
def translateTitles (tbl : Nat → List Nat) (fuel : Nat) (text : JSString) :
    Dict → Option (List Span)
  | [] => some []
  | (american, british) :: rest =>
    match titleRegExp american with
    | none => none
    | some re =>
      match execLoop tbl re text (titleSpan tbl text british) fuel 0,
            translateTitles tbl fuel text rest with
      | some here, some later => some (here ++ later)
      | _, _ => none

/-- The object pushed by the time matchers: the two captures joined by `sep`. -/
def timeSpan (text : JSString) (sep : Nat) (i : Nat) (st : MatchState) : Option Span :=
  some ⟨i, st.endIndex, slice text i st.endIndex,
    capture text st 2 1 ++ [sep] ++ capture text st 2 2⟩

/-- The method `translateTimeAmericanToBritish(text)`. -/
def translateTimeAmericanToBritish (tbl : Nat → List Nat) (fuel : Nat) (text : JSString) :
    Option (List Span) :=
  execLoop tbl americanTimeRegExp text (timeSpan text 46) fuel 0

/-- The method `translateTimeBritishToAmerican(text)`. -/
def translateTimeBritishToAmerican (tbl : Nat → List Nat) (fuel : Nat) (text : JSString) :
    Option (List Span) :=
  execLoop tbl britishTimeRegExp text (timeSpan text 58) fuel 0

/-! ## Deduplication, ordering and substitution -/

/-- The decimal digits of `n` in front of `acc`; `fuel` bounds the number of digits. -/
def decimalAux : Nat → Nat → List Nat → List Nat
  | 0, _, acc => acc
  | fuel + 1, n, acc =>
    if n / 10 = 0 then (48 + n % 10) :: acc
    else decimalAux fuel (n / 10) ((48 + n % 10) :: acc)

/-- The string of a non-negative integer, as a template literal prints it. -/
def decimal (n : Nat) : JSString := decimalAux (n + 1) n []

/-- The key of a span in `applyTranslations`: the template string with `start`, a
hyphen and `end`. -/
def positionKey (t : Span) : JSString :=
  decimal t.start ++ [45] ++ decimal t.end_

/-- The first loop of `applyTranslations`: `positions` holds the keys seen so far and
a span is kept when its key is new. -/
def uniqueFrom : List JSString → List Span → List Span
  | _, [] => []
  | positions, t :: rest =>
    if positionKey t ∈ positions then uniqueFrom positions rest
    else t :: uniqueFrom (positionKey t :: positions) rest

/-- Insert `a`, which precedes the elements of the list in the array, into a list
ordered by decreasing `key`: after the elements with a larger key and before those
with the same or a smaller key. -/
def insertDesc (key : Span → Nat) (a : Span) : List Span → List Span
  | [] => [a]
  | b :: rest => if key a < key b then b :: insertDesc key a rest else a :: b :: rest

/-- The method `Array.prototype.sort` with a comparator `(a, b) => key(b) - key(a)`:
the ordering by decreasing `key` that keeps elements with equal keys in their order
(the sort is stable). -/
def sortDesc (key : Span → Nat) : List Span → List Span
  | [] => []
  | a :: rest => insertDesc key a (sortDesc key rest)

/-- The opening marker. -/
def highlightOpen : JSString := str "<span class=\"highlight\">"

/-- The closing marker. -/
def highlightClose : JSString := str "</span>"

/-- One step of the substitution loop of `applyTranslations`. -/
def applyOne (result : JSString) (t : Span) : JSString :=
  result.take t.start ++ (highlightOpen ++ t.replacement ++ highlightClose) ++
    result.drop t.end_

/-- The method `applyTranslations(text, translations)`. -/
def applyTranslations (text : JSString) (translations : List Span) : JSString :=
  let uniqueTranslations := sortDesc (fun t => t.start) (uniqueFrom [] translations)
  uniqueTranslations.foldl applyOne text

/-! ## Inverting a dictionary -/

/-- The value of the digits `ds` read after the value `acc`, if all are digits. -/
def digitsValue : List Nat → Nat → Option Nat
  | [], acc => some acc
  | d :: ds, acc => if 48 ≤ d ∧ d ≤ 57 then digitsValue ds (acc * 10 + (d - 48)) else none

/-- The array index a property key denotes, if it is the canonical string of an integer
below `2^32 - 1`; such keys are enumerated first, in increasing order. -/
def arrayIndex (key : JSString) : Option Nat :=
  match key with
  | [] => none
  | [48] => some 0
  | d :: ds =>
    if d = 48 then none
    else match digitsValue (d :: ds) 0 with
      | some n => if n < 4294967295 then some n else none
      | none => none

/-- Whether a new property `key` is enumerated before the existing property `other`. -/
def keyBefore (key other : JSString) : Bool :=
  match arrayIndex key, arrayIndex other with
  | some i, some j => i < j
  | some _, none => true
  | none, _ => false

/-- The place of a new property in the enumeration order of an object. -/
def insertNew (key value : JSString) : Dict → Dict
  | [] => [(key, value)]
  | (k, v) :: rest =>
    if keyBefore key k then (key, value) :: (k, v) :: rest
    else (k, v) :: insertNew key value rest

/-- The assignment `obj[key] = value` of a string on the entries of a plain object: an
existing property keeps its place and takes the new value, a new property is created;
the key `__proto__` is the inherited accessor, whose setter ignores a string. -/
def assign (key value : JSString) (obj : Dict) : Dict :=
  if key = str "__proto__" then obj
  else if obj.any (fun e => e.1 = key) then
    obj.map (fun e => if e.1 = key then (e.1, value) else e)
  else insertNew key value obj

/-- The method `reverseDict(dict)`, as the entries of the object it returns. -/
def reverseDict (dict : Dict) : Dict :=
  dict.foldl (fun reversed e => assign e.2 e.1 reversed) []

/-! ## The entry point -/

/-- The four required dictionary modules. -/
structure Dictionaries where
  americanOnly : Dict
  americanToBritishSpelling : Dict
  americanToBritishTitles : Dict
  britishOnly : Dict

/-- What `translate` returns: `{ error }` or `{ text, translation }`. -/
inductive TranslationResult where
  | error (error : JSString)
  | success (text translation : JSString)
  deriving DecidableEq, Repr

/-- The spans pooled by `translate` for a recognised locale, in the order of the
`concat` calls. -/
def pooled (tbl : Nat → List Nat) (d : Dictionaries) (fuel : Nat) (text : JSString)
    (americanToBritish : Bool) : Option (List Span) :=
  if americanToBritish then
    match translateTerms tbl fuel text d.americanOnly,
          translateTerms tbl fuel text d.americanToBritishSpelling,
          translateTitles tbl fuel text d.americanToBritishTitles,
          translateTimeAmericanToBritish tbl fuel text with
    | some a, some b, some c, some e => some (a ++ b ++ c ++ e)
    | _, _, _, _ => none
  else
    let britishToAmericanSpelling := reverseDict d.americanToBritishSpelling
    let britishToAmericanTitles := reverseDict d.americanToBritishTitles
    match translateTerms tbl fuel text d.britishOnly,
          translateTerms tbl fuel text britishToAmericanSpelling,
          translateTitles tbl fuel text britishToAmericanTitles,
          translateTimeBritishToAmerican tbl fuel text with
    | some a, some b, some c, some e => some (a ++ b ++ c ++ e)
    | _, _, _, _ => none

/-- The method `translate(text, locale)`; an argument that is not provided is `none`. -/
def translate (tbl : Nat → List Nat) (d : Dictionaries) (fuel : Nat)
    (text locale : Option JSString) : Option TranslationResult :=
  match text with
  | none => some (.error (str "Required field(s) missing"))
  | some [] => some (.error (str "No text to translate"))
  | some (c :: cs) =>
    let text := c :: cs
    match locale with
    | none => some (.error (str "Required field(s) missing"))
    | some [] => some (.error (str "Required field(s) missing"))
    | some locale =>
      if locale ≠ str "american-to-british" ∧ locale ≠ str "british-to-american" then
        some (.error (str "Invalid value for locale field"))
      else
        match pooled tbl d fuel text (locale = str "american-to-british") with
        | none => none
        | some translations =>
          if translations.length = 0 then
            some (.success text (str "Everything looks good to me!"))
          else
            let translations := sortDesc (fun t => t.original.length) translations
            some (.success text (applyTranslations text translations))

/-! ## Notions used to state the properties -/

/-- Two strings are equal up to letter case: they agree unit by unit after
canonicalization. -/
def EqualUpToCase (tbl : Nat → List Nat) (a b : JSString) : Prop :=
  a.map (canonicalize tbl) = b.map (canonicalize tbl)

instance (tbl : Nat → List Nat) (a b : JSString) : Decidable (EqualUpToCase tbl a b) := by
  unfold EqualUpToCase
  infer_instance

/-- The key occurs in the text at offset `i` as a whole word, up to letter case: the
`key.length` units from `i` on equal the key up to case and there is a word boundary
on both sides (a word character on exactly one side of the offset, the edge of the text
counting as a non-word character). -/
def WholeWordOccurrence (tbl : Nat → List Nat) (text key : JSString) (i : Nat) : Prop :=
  EqualUpToCase tbl (slice text i (i + key.length)) key ∧
  isWordBoundary text i = true ∧ isWordBoundary text (i + key.length) = true

instance (tbl : Nat → List Nat) (text key : JSString) (i : Nat) :
    Decidable (WholeWordOccurrence tbl text key i) := by
  unfold WholeWordOccurrence
  infer_instance

/-- Every match of `re` in `text` is non-empty and ends inside the text. -/
def Progress (tbl : Nat → List Nat) (re : RegExp) (text : JSString) : Prop :=
  ∀ i st, matchNodes tbl re.ignoreCase text re.nodes i [] [] = some st →
    i < st.endIndex ∧ st.endIndex ≤ text.length

/-- The number written by a list of digit units. -/
def digitsNumber (ds : List Nat) : Nat := ds.foldl (fun v d => v * 10 + (d - 48)) 0

/-- A code unit is a decimal digit. -/
def isDigit (c : Nat) : Bool := 48 ≤ c && c ≤ 57

/-- The nodes of the two time patterns, which differ in the separator only. -/
def timeNodes (sep : Nat) : List Node :=
  [.wordBoundary, .groupOpen, .repeat 1 2 .digit, .groupClose, .atom (.char sep),
    .groupOpen, .repeat 2 2 .digit, .groupClose, .wordBoundary]

/-! ## Well-formed dictionaries and sample data -/

/-- Every key of the dictionary is a non-empty string. -/
def NonEmptyKeys (dict : Dict) : Prop := ∀ e ∈ dict, e.1 ≠ []

instance (dict : Dict) : Decidable (NonEmptyKeys dict) := by
  unfold NonEmptyKeys
  infer_instance

/-- Every value of the dictionary is a non-empty string. -/
def NonEmptyValues (dict : Dict) : Prop := ∀ e ∈ dict, e.2 ≠ []

instance (dict : Dict) : Decidable (NonEmptyValues dict) := by
  unfold NonEmptyValues
  infer_instance

/-- The dictionaries have no empty search term in either direction. -/
def WellFormed (d : Dictionaries) : Prop :=
  NonEmptyKeys d.americanOnly ∧ NonEmptyKeys d.britishOnly ∧
  NonEmptyKeys d.americanToBritishSpelling ∧ NonEmptyValues d.americanToBritishSpelling ∧
  NonEmptyKeys d.americanToBritishTitles ∧ NonEmptyValues d.americanToBritishTitles

instance (d : Dictionaries) : Decidable (WellFormed d) := by
  unfold WellFormed
  infer_instance

/-- A case table that leaves every code unit outside ASCII unchanged. -/
def plainTable : Nat → List Nat := fun c => [c]

/-- A small set of dictionaries for examples. -/
def sampleDictionaries : Dictionaries where
  americanOnly := [(str "popsicle", str "ice lolly")]
  americanToBritishSpelling := [(str "favor", str "favour")]
  americanToBritishTitles := [(str "dr.", str "doctor")]
  britishOnly := [(str "ice lolly", str "popsicle")]

/-- Dictionaries in which a terms-only key and a spelling key match the same words. -/
def overlappingDictionaries : Dictionaries where
  americanOnly := [(str "chips", str "crisps")]
  americanToBritishSpelling := [(str "CHIPS", str "fries")]
  americanToBritishTitles := []
  britishOnly := []

/-- The invariant of a span of `text`: `0 <= start < end <= length(text)` and `original` is
the substring between the two offsets. -/
def SpanInText (text : JSString) (s : Span) : Prop :=
  s.start < s.end_ ∧ s.end_ ≤ text.length ∧ s.original = slice text s.start s.end_

instance (text : JSString) (s : Span) : Decidable (SpanInText text s) := by
  unfold SpanInText
  infer_instance

/-- The keys of the dictionary are pairwise different. -/
def UniqueKeys (dict : Dict) : Prop := (dict.map Prod.fst).Nodup

instance (dict : Dict) : Decidable (UniqueKeys dict) := by
  unfold UniqueKeys
  infer_instance

/-- The values of the dictionary are pairwise different. -/
def UniqueValues (dict : Dict) : Prop := (dict.map Prod.snd).Nodup

instance (dict : Dict) : Decidable (UniqueValues dict) := by
  unfold UniqueValues
  infer_instance

/-- Dictionaries with unique keys and values in which one key is the empty string. -/
def emptyKeyDictionaries : Dictionaries where
  americanOnly := [(str "", str "x")]
  americanToBritishSpelling := []
  americanToBritishTitles := []
  britishOnly := []

/-- The text from offset `pos` on in which the range of each span of the list, taken from
left to right, is replaced by its highlighted replacement and every other code unit is
kept (this follows the words of the specification, not the substitution loop). -/
def renderFrom (text : JSString) : Nat → List Span → JSString
  | pos, [] => text.drop pos
  | pos, s :: rest =>
    slice text pos s.start ++ (highlightOpen ++ s.replacement ++ highlightClose) ++
      renderFrom text s.end_ rest

/-- Dictionaries in which one terms-only key is the first word of another one. -/
def nestedDictionaries : Dictionaries where
  americanOnly := [(str "trash", str "rubbish"), (str "trash can", str "bin")]
  americanToBritishSpelling := []
  americanToBritishTitles := []
  britishOnly := []

end Translator

namespace Translator

/-! ## The pattern matcher -/

/-- The nodes of a literal string. -/
theorem parseLiterals_escapeRegex (key : JSString) :
    parseLiterals (escapeRegex key) = some (key.map (fun c => Node.atom (.char c))) := by
  induction key with
  | nil => rfl
  | cons c cs ih =>
    have hcons : escapeRegex (c :: cs) =
        (if c ∈ syntaxUnits then [92, c] else [c]) ++ escapeRegex cs := by
      simp [escapeRegex]
    rw [hcons]
    by_cases hc : c ∈ syntaxUnits
    · simp only [hc, if_true]
      show parseLiterals (92 :: c :: escapeRegex cs) = _
      simp [parseLiterals, hc, ih]
    · have h92 : c ≠ 92 := by
        intro h; apply hc; rw [h]; decide
      simp only [hc, if_false]
      show parseLiterals (c :: escapeRegex cs) = _
      rw [parseLiterals.eq_def]
      simp [hc, h92, ih]

theorem termRegExp_eq (key : JSString) :
    termRegExp key = some ⟨[Node.wordBoundary] ++ key.map (fun c => Node.atom (.char c)) ++
      [Node.wordBoundary], true⟩ := by
  simp [termRegExp, parseLiterals_escapeRegex]

theorem titleRegExp_eq (key : JSString) :
    titleRegExp key = some ⟨[Node.wordBoundary] ++ key.map (fun c => Node.atom (.char c)) ++
      [Node.lookahead [.whiteSpace, .range 65 90]], true⟩ := by
  simp [titleRegExp, parseLiterals_escapeRegex]

theorem matchNodes_literals (tbl : Nat → List Nat) (text : JSString) (key : JSString)
    (rest : List Node) (pos : Nat) (opens closes : List Nat) :
    matchNodes tbl true text (key.map (fun c => Node.atom (.char c)) ++ rest) pos opens closes =
      if atomsAccept tbl true text (key.map Atom.char) pos then
        matchNodes tbl true text rest (pos + key.length) opens closes
      else none := by
  induction key generalizing pos with
  | nil => simp [atomsAccept]
  | cons c cs ih =>
    simp only [List.map_cons, List.cons_append, matchNodes, atomsAccept, List.length_cons]
    by_cases h : text[pos]?.any (Atom.accepts tbl true (.char c)) = true
    · simp only [h, if_true, Bool.true_and, List.append_eq]
      rw [ih]
      have : pos + 1 + cs.length = pos + (cs.length + 1) := by omega
      rw [this]
    · simp [h]

theorem slice_length_le (text : JSString) (i j : Nat) : (slice text i j).length ≤ j - i := by
  simp [slice, List.length_take]

theorem slice_cons (text : JSString) (i n : Nat) (c : Nat) (h : text[i]? = some c) :
    slice text i (i + (n + 1)) = c :: slice text (i + 1) (i + 1 + n) := by
  have hi : i < text.length := by
    rcases Nat.lt_or_ge i text.length with h1 | h1
    · exact h1
    · rw [List.getElem?_eq_none h1] at h; cases h
  have hc : text[i] = c := by
    rw [List.getElem?_eq_getElem hi] at h; exact Option.some.inj h
  unfold slice
  rw [List.drop_eq_getElem_cons hi, hc]
  have e1 : i + (n + 1) - i = n + 1 := by omega
  have e2 : i + 1 + n - (i + 1) = n := by omega
  rw [e1, e2, List.take_succ_cons]

theorem slice_none (text : JSString) (i j : Nat) (h : text[i]? = none) :
    slice text i j = [] := by
  have hi : text.length ≤ i := by
    rcases Nat.lt_or_ge i text.length with h1 | h1
    · rw [List.getElem?_eq_getElem h1] at h; cases h
    · exact h1
  simp [slice, List.drop_eq_nil_of_le hi]

/-- A run of `k` accepted code units is a slice of length `k` whose units are accepted. -/
theorem runAccepts_iff (tbl : Nat → List Nat) (ic : Bool) (text : JSString) (a : Atom)
    (k pos : Nat) :
    runAccepts tbl ic text a k pos = true ↔
      (slice text pos (pos + k)).length = k ∧
      ∀ c ∈ slice text pos (pos + k), a.accepts tbl ic c = true := by
  induction k generalizing pos with
  | zero => simp [runAccepts, slice]
  | succ n ih =>
    rw [runAccepts]
    cases hg : text[pos]? with
    | none =>
      rw [slice_none text pos _ hg]
      simp
    | some c =>
      rw [slice_cons text pos n c hg]
      simp only [Option.any_some, Bool.and_eq_true, ih, List.length_cons, List.mem_cons,
        forall_eq_or_imp]
      constructor
      · rintro ⟨h1, h2, h3⟩
        exact ⟨by omega, h1, h3⟩
      · rintro ⟨h1, h2, h3⟩
        exact ⟨h2, by omega, h3⟩

theorem atomsAccept_literals_iff (tbl : Nat → List Nat) (text key : JSString) (pos : Nat) :
    atomsAccept tbl true text (key.map Atom.char) pos = true ↔
      EqualUpToCase tbl (slice text pos (pos + key.length)) key := by
  unfold EqualUpToCase
  induction key generalizing pos with
  | nil => simp [atomsAccept, slice]
  | cons k ks ih =>
    rw [List.map_cons, atomsAccept]
    cases hg : text[pos]? with
    | none =>
      rw [slice_none text pos _ hg]
      simp
    | some c =>
      rw [List.length_cons, slice_cons text pos ks.length c hg]
      simp only [Option.any_some, Bool.and_eq_true, ih, List.map_cons, List.cons.injEq]
      simp only [Atom.accepts, Atom.units, if_true, List.any_cons, List.any_nil, Bool.or_false,
        beq_iff_eq]
      constructor
      · rintro ⟨h1, h2⟩; exact ⟨h1.symm, h2⟩
      · rintro ⟨h1, h2⟩; exact ⟨h1.symm, h2⟩

theorem equalUpToCase_length {tbl : Nat → List Nat} {a b : JSString}
    (h : EqualUpToCase tbl a b) : a.length = b.length := by
  have := congrArg List.length h
  simpa using this

/-- Matches of the pattern of `translateTerms`. -/
theorem matchNodes_term_iff (tbl : Nat → List Nat) (text key : JSString) (i : Nat)
    (st : MatchState) :
    matchNodes tbl true text ([Node.wordBoundary] ++ key.map (fun c => Node.atom (.char c)) ++
      [Node.wordBoundary]) i [] [] = some st ↔
    (isWordBoundary text i = true ∧
     EqualUpToCase tbl (slice text i (i + key.length)) key ∧
     isWordBoundary text (i + key.length) = true) ∧ st = ⟨i + key.length, [], []⟩ := by
  rw [List.append_assoc, List.singleton_append, matchNodes, matchNodes_literals,
    ← atomsAccept_literals_iff]
  by_cases h1 : isWordBoundary text i = true
  · by_cases h2 : atomsAccept tbl true text (key.map Atom.char) i = true
    · by_cases h3 : isWordBoundary text (i + key.length) = true
      · simp [h1, h2, h3, matchNodes, eq_comm]
      · simp [h1, h2, h3, matchNodes]
    · simp [h1, h2]
  · simp [h1]

/-- Matches of the pattern of `translateTitles`. -/
theorem matchNodes_title_iff (tbl : Nat → List Nat) (text key : JSString) (i : Nat)
    (st : MatchState) :
    matchNodes tbl true text ([Node.wordBoundary] ++ key.map (fun c => Node.atom (.char c)) ++
      [Node.lookahead [.whiteSpace, .range 65 90]]) i [] [] = some st ↔
    (isWordBoundary text i = true ∧
     EqualUpToCase tbl (slice text i (i + key.length)) key ∧
     atomsAccept tbl true text [.whiteSpace, .range 65 90] (i + key.length) = true) ∧
     st = ⟨i + key.length, [], []⟩ := by
  rw [List.append_assoc, List.singleton_append, matchNodes, matchNodes_literals,
    ← atomsAccept_literals_iff]
  by_cases h1 : isWordBoundary text i = true
  · by_cases h2 : atomsAccept tbl true text (key.map Atom.char) i = true
    · by_cases h3 : atomsAccept tbl true text [.whiteSpace, .range 65 90] (i + key.length) = true
      · simp [h1, h2, h3, matchNodes, eq_comm]
      · simp [h1, h2, h3, matchNodes]
    · simp [h1, h2]
  · simp [h1]

theorem scanFrom_some {tbl : Nat → List Nat} {re : RegExp} {text : JSString} {count i j : Nat}
    {st : MatchState} (h : scanFrom tbl re text count i = some (j, st)) :
    i ≤ j ∧ j < i + count ∧ matchNodes tbl re.ignoreCase text re.nodes j [] [] = some st ∧
    ∀ k, i ≤ k → k < j → matchNodes tbl re.ignoreCase text re.nodes k [] [] = none := by
  induction count generalizing i with
  | zero => simp [scanFrom] at h
  | succ n ih =>
    rw [scanFrom] at h
    cases hm : matchNodes tbl re.ignoreCase text re.nodes i [] [] with
    | some st' =>
      rw [hm] at h
      simp only [Option.some.injEq, Prod.mk.injEq] at h
      obtain ⟨rfl, rfl⟩ := h
      exact ⟨Nat.le_refl _, by omega, hm, fun k h1 h2 => absurd h2 (by omega)⟩
    | none =>
      rw [hm] at h
      obtain ⟨h1, h2, h3, h4⟩ := ih h
      refine ⟨by omega, by omega, h3, ?_⟩
      intro k hk1 hk2
      rcases Nat.eq_or_lt_of_le hk1 with e | e
      · rw [← e]; exact hm
      · exact h4 k e hk2

theorem scanFrom_none {tbl : Nat → List Nat} {re : RegExp} {text : JSString} {count i : Nat}
    (h : scanFrom tbl re text count i = none) :
    ∀ k, i ≤ k → k < i + count →
      matchNodes tbl re.ignoreCase text re.nodes k [] [] = none := by
  induction count generalizing i with
  | zero => intro k h1 h2; omega
  | succ n ih =>
    rw [scanFrom] at h
    cases hm : matchNodes tbl re.ignoreCase text re.nodes i [] [] with
    | some st' => rw [hm] at h; cases h
    | none =>
      rw [hm] at h
      intro k hk1 hk2
      rcases Nat.eq_or_lt_of_le hk1 with e | e
      · rw [← e]; exact hm
      · exact ih h k e (by omega)

theorem exec_some {tbl : Nat → List Nat} {re : RegExp} {text : JSString} {lastIndex j : Nat}
    {st : MatchState} (h : exec tbl re text lastIndex = some (j, st)) :
    lastIndex ≤ j ∧ j ≤ text.length ∧
    matchNodes tbl re.ignoreCase text re.nodes j [] [] = some st ∧
    ∀ k, lastIndex ≤ k → k < j → matchNodes tbl re.ignoreCase text re.nodes k [] [] = none := by
  unfold exec at h
  split at h
  · cases h
  · obtain ⟨h1, h2, h3, h4⟩ := scanFrom_some h
    exact ⟨h1, by omega, h3, h4⟩

theorem exec_none {tbl : Nat → List Nat} {re : RegExp} {text : JSString} {lastIndex : Nat}
    (h : exec tbl re text lastIndex = none) :
    ∀ k, lastIndex ≤ k → k ≤ text.length →
      matchNodes tbl re.ignoreCase text re.nodes k [] [] = none := by
  unfold exec at h
  split at h
  · intro k h1 h2; omega
  · intro k h1 h2
    exact scanFrom_none h k h1 (by omega)

/-- The scanning loop returns when every match is non-empty and `fuel` exceeds the
number of code units that remain. -/
theorem execLoop_returns {tbl : Nat → List Nat} {re : RegExp} {text : JSString}
    {mk : Nat → MatchState → Option Span} (hp : Progress tbl re text)
    (hmk : ∀ i st, matchNodes tbl re.ignoreCase text re.nodes i [] [] = some st →
      ∃ s, mk i st = some s)
    (fuel lastIndex : Nat) (hf : text.length + 1 ≤ fuel + lastIndex) (h0 : 0 < fuel) :
    ∃ l, execLoop tbl re text mk fuel lastIndex = some l := by
  induction fuel generalizing lastIndex with
  | zero => omega
  | succ n ih =>
    rw [execLoop]
    cases he : exec tbl re text lastIndex with
    | none => exact ⟨[], rfl⟩
    | some r =>
      obtain ⟨j, st⟩ := r
      obtain ⟨h1, h2, h3, -⟩ := exec_some he
      obtain ⟨hp1, hp2⟩ := hp j st h3
      obtain ⟨s, hs⟩ := hmk j st h3
      obtain ⟨l, hl⟩ := ih st.endIndex (by omega) (by omega)
      exact ⟨s :: l, by simp [hs, hl]⟩

/-- Every span pushed by the scanning loop comes from a match. -/
theorem execLoop_mem {tbl : Nat → List Nat} {re : RegExp} {text : JSString}
    {mk : Nat → MatchState → Option Span} {fuel lastIndex : Nat} {l : List Span}
    (h : execLoop tbl re text mk fuel lastIndex = some l) {s : Span} (hs : s ∈ l) :
    ∃ i st, i ≤ text.length ∧
      matchNodes tbl re.ignoreCase text re.nodes i [] [] = some st ∧ mk i st = some s := by
  induction fuel generalizing lastIndex l with
  | zero => simp [execLoop] at h
  | succ n ih =>
    rw [execLoop] at h
    cases he : exec tbl re text lastIndex with
    | none =>
      rw [he] at h
      simp only [Option.some.injEq] at h
      subst h
      cases hs
    | some r =>
      obtain ⟨j, st⟩ := r
      rw [he] at h
      simp only at h
      obtain ⟨h1, h2, h3, -⟩ := exec_some he
      cases hm : mk j st with
      | none => rw [hm] at h; simp at h
      | some s0 =>
        cases hr : execLoop tbl re text mk n st.endIndex with
        | none => rw [hm, hr] at h; simp at h
        | some rest =>
          rw [hm, hr] at h
          simp only [Option.some.injEq] at h
          subst h
          rcases List.mem_cons.mp hs with e | e
          · subst e
            exact ⟨j, st, h2, h3, hm⟩
          · exact ih hr e

/-- A match at or after `lastIndex` is pushed by the scanning loop, unless it starts
inside a match that was pushed before it. -/
theorem execLoop_complete {tbl : Nat → List Nat} {re : RegExp} {text : JSString}
    {mk : Nat → MatchState → Option Span} (hp : Progress tbl re text)
    {fuel lastIndex : Nat} {l : List Span}
    (h : execLoop tbl re text mk fuel lastIndex = some l) {k : Nat} {st : MatchState}
    (hk : lastIndex ≤ k) (hm : matchNodes tbl re.ignoreCase text re.nodes k [] [] = some st) :
    (∃ s ∈ l, mk k st = some s) ∨
    (∃ j st', j < k ∧ k < st'.endIndex ∧
      matchNodes tbl re.ignoreCase text re.nodes j [] [] = some st' ∧
      ∃ s ∈ l, mk j st' = some s) := by
  induction fuel generalizing lastIndex l with
  | zero => simp [execLoop] at h
  | succ n ih =>
    rw [execLoop] at h
    obtain ⟨hk1, hk2⟩ := hp k st hm
    cases he : exec tbl re text lastIndex with
    | none =>
      have := exec_none he k hk (by omega)
      rw [hm] at this; cases this
    | some r =>
      obtain ⟨j, st'⟩ := r
      rw [he] at h
      simp only at h
      obtain ⟨h1, h2, h3, h4⟩ := exec_some he
      cases hmk : mk j st' with
      | none => rw [hmk] at h; simp at h
      | some s0 =>
        cases hr : execLoop tbl re text mk n st'.endIndex with
        | none => rw [hmk, hr] at h; simp at h
        | some rest =>
          rw [hmk, hr] at h
          simp only [Option.some.injEq] at h
          subst h
          rcases Nat.lt_trichotomy k j with c | c | c
          · have := h4 k hk c
            rw [hm] at this; cases this
          · subst c
            rw [hm] at h3
            cases h3
            exact Or.inl ⟨s0, List.mem_cons_self _ _, hmk⟩
          · rcases Nat.lt_or_ge k st'.endIndex with c2 | c2
            · exact Or.inr ⟨j, st', c, c2, h3, s0, List.mem_cons_self _ _, hmk⟩
            · rcases ih hr c2 with ⟨s, hs, e⟩ | ⟨j2, st2, a1, a2, a3, s, hs, e⟩
              · exact Or.inl ⟨s, List.mem_cons_of_mem _ hs, e⟩
              · exact Or.inr ⟨j2, st2, a1, a2, a3, s, List.mem_cons_of_mem _ hs, e⟩

theorem slice_length (text : JSString) (i j : Nat) :
    (slice text i j).length = min (j - i) (text.length - i) := by
  simp [slice, List.length_take]

theorem slice_bound {text : JSString} {i n : Nat} (h : (slice text i (i + n)).length = n)
    (hn : 0 < n) : i + n ≤ text.length := by
  rw [slice_length] at h
  omega

theorem progress_term (tbl : Nat → List Nat) (text key : JSString) (hk : key ≠ []) :
    Progress tbl ⟨[Node.wordBoundary] ++ key.map (fun c => Node.atom (.char c)) ++
      [Node.wordBoundary], true⟩ text := by
  intro i st h
  obtain ⟨⟨-, h2, -⟩, rfl⟩ := (matchNodes_term_iff tbl text key i st).mp h
  have hl := equalUpToCase_length h2
  have hpos : 0 < key.length := List.length_pos.mpr hk
  have := slice_bound hl hpos
  exact ⟨by simpa using hpos, this⟩

theorem progress_title (tbl : Nat → List Nat) (text key : JSString) (hk : key ≠ []) :
    Progress tbl ⟨[Node.wordBoundary] ++ key.map (fun c => Node.atom (.char c)) ++
      [Node.lookahead [.whiteSpace, .range 65 90]], true⟩ text := by
  intro i st h
  obtain ⟨⟨-, h2, -⟩, rfl⟩ := (matchNodes_title_iff tbl text key i st).mp h
  have hl := equalUpToCase_length h2
  have hpos : 0 < key.length := List.length_pos.mpr hk
  have := slice_bound hl hpos
  exact ⟨by simpa using hpos, this⟩

/-- The method `translateTerms` returns for a dictionary without an empty key. -/
theorem translateTerms_returns (tbl : Nat → List Nat) (fuel : Nat) (text : JSString)
    (dict : Dict) (hd : NonEmptyKeys dict) (hf : text.length < fuel) :
    ∃ l, translateTerms tbl fuel text dict = some l := by
  induction dict with
  | nil => exact ⟨[], rfl⟩
  | cons e rest ih =>
    obtain ⟨american, british⟩ := e
    have hk : american ≠ [] := hd (american, british) (List.mem_cons_self _ _)
    obtain ⟨later, hlater⟩ := ih (fun e he => hd e (List.mem_cons_of_mem _ he))
    obtain ⟨here, hhere⟩ := @execLoop_returns tbl _ text (termSpan text british)
      (progress_term tbl text american hk) (fun i st _ => ⟨_, rfl⟩) fuel 0 (by omega) (by omega)
    refine ⟨here ++ later, ?_⟩
    rw [translateTerms, termRegExp_eq]
    simp only
    rw [hhere, hlater]

/-- Every span of `translateTerms` covers a whole-word occurrence of a key and carries
the value of that key. -/
theorem translateTerms_mem {tbl : Nat → List Nat} {fuel : Nat} {text : JSString}
    {dict : Dict} {l : List Span} (h : translateTerms tbl fuel text dict = some l)
    {s : Span} (hs : s ∈ l) :
    ∃ e ∈ dict, ∃ i, WholeWordOccurrence tbl text e.1 i ∧
      s = ⟨i, i + e.1.length, slice text i (i + e.1.length), e.2⟩ := by
  induction dict generalizing l with
  | nil =>
    simp only [translateTerms, Option.some.injEq] at h
    subst h; cases hs
  | cons e rest ih =>
    obtain ⟨american, british⟩ := e
    rw [translateTerms, termRegExp_eq] at h
    simp only at h
    cases hh : execLoop tbl ⟨[Node.wordBoundary] ++ american.map (fun c => Node.atom (.char c)) ++
      [Node.wordBoundary], true⟩ text (termSpan text british) fuel 0 with
    | none => rw [hh] at h; simp at h
    | some here =>
      cases hl : translateTerms tbl fuel text rest with
      | none => rw [hh, hl] at h; simp at h
      | some later =>
        rw [hh, hl] at h
        simp only [Option.some.injEq] at h
        subst h
        rcases List.mem_append.mp hs with m | m
        · obtain ⟨i, st, -, hm, hmk⟩ := execLoop_mem hh m
          obtain ⟨⟨b1, b2, b3⟩, rfl⟩ := (matchNodes_term_iff tbl text american i st).mp hm
          refine ⟨(american, british), List.mem_cons_self _ _, i, ⟨b2, b1, b3⟩, ?_⟩
          simp only [termSpan, Option.some.injEq] at hmk
          exact hmk.symm
        · obtain ⟨e, he, r⟩ := ih hl m
          exact ⟨e, List.mem_cons_of_mem _ he, r⟩

theorem matchNodes_repeat {tbl : Nat → List Nat} {ic : Bool} {text : JSString} {lo hi : Nat}
    {a : Atom} {rest : List Node} {pos : Nat} {opens closes : List Nat} {st : MatchState}
    (h : matchNodes tbl ic text (.repeat lo hi a :: rest) pos opens closes = some st) :
    ∃ k, lo ≤ k ∧ k ≤ hi ∧ runAccepts tbl ic text a k pos = true ∧
      matchNodes tbl ic text rest (pos + k) opens closes = some st := by
  rw [matchNodes] at h
  obtain ⟨j, hj, hf⟩ := List.exists_of_findSome?_eq_some h
  have hj2 : j < hi + 1 - lo := List.mem_range.mp hj
  by_cases hr : runAccepts tbl ic text a (hi - j) pos = true
  · rw [if_pos hr] at hf
    exact ⟨hi - j, by omega, by omega, hr, hf⟩
  · rw [if_neg hr] at hf
    cases hf

theorem matchNodes_time {tbl : Nat → List Nat} {text : JSString} {sep i : Nat}
    {st : MatchState} (h : matchNodes tbl false text (timeNodes sep) i [] [] = some st) :
    ∃ n, (n = 1 ∨ n = 2) ∧ runAccepts tbl false text .digit n i = true ∧
      text[i + n]? = some sep ∧ runAccepts tbl false text .digit 2 (i + n + 1) = true ∧
      isWordBoundary text i = true ∧ isWordBoundary text (i + n + 3) = true ∧
      st = ⟨i + n + 3, [i + n + 1, i], [i + n + 3, i + n]⟩ := by
  rw [timeNodes, matchNodes] at h
  split at h
  · rename_i hw
    rw [matchNodes] at h
    obtain ⟨n, n1, n2, hn, h⟩ := matchNodes_repeat h
    rw [matchNodes, matchNodes] at h
    split at h
    · rename_i hs
      rw [matchNodes] at h
      obtain ⟨m, m1, m2, hm, h⟩ := matchNodes_repeat h
      have em : m = 2 := by omega
      subst em
      rw [matchNodes, matchNodes] at h
      split at h
      · rename_i hw2
        rw [matchNodes] at h
        have e3 : i + n + 1 + 2 = i + n + 3 := by omega
        rw [e3] at h hw2
        refine ⟨n, by omega, hn, ?_, hm, hw, hw2, (Option.some.inj h).symm⟩
        cases hg : text[i + n]? with
        | none => rw [hg] at hs; cases hs
        | some c =>
          rw [hg] at hs
          simp [Atom.accepts, Atom.units] at hs
          rw [hs]
      · cases h
    · cases h
  · cases h

/-! ## The matchers return and what they emit -/

/-- The method `translateTitles` returns for a dictionary without an empty key. -/
theorem translateTitles_returns (tbl : Nat → List Nat) (fuel : Nat) (text : JSString)
    (dict : Dict) (hd : NonEmptyKeys dict) (hf : text.length < fuel) :
    ∃ l, translateTitles tbl fuel text dict = some l := by
  induction dict with
  | nil => exact ⟨[], rfl⟩
  | cons e rest ih =>
    obtain ⟨american, british⟩ := e
    have hk : american ≠ [] := hd (american, british) (List.mem_cons_self _ _)
    obtain ⟨later, hlater⟩ := ih (fun e he => hd e (List.mem_cons_of_mem _ he))
    have hmk : ∀ i st, matchNodes tbl true text ([Node.wordBoundary] ++
        american.map (fun c => Node.atom (.char c)) ++
        [Node.lookahead [.whiteSpace, .range 65 90]]) i [] [] = some st →
        ∃ s, titleSpan tbl text british i st = some s := by
      intro i st h
      obtain ⟨⟨-, h2, -⟩, rfl⟩ := (matchNodes_title_iff tbl text american i st).mp h
      have hl := equalUpToCase_length h2
      have hpos : 0 < american.length := List.length_pos.mpr hk
      unfold titleSpan
      cases hsl : slice text i (i + american.length) with
      | nil => rw [hsl] at hl; simp at hl; omega
      | cons c m => exact ⟨_, rfl⟩
    obtain ⟨here, hhere⟩ := @execLoop_returns tbl _ text (titleSpan tbl text british)
      (progress_title tbl text american hk) hmk fuel 0 (by omega) (by omega)
    refine ⟨here ++ later, ?_⟩
    rw [translateTitles, titleRegExp_eq]
    simp only
    rw [hhere, hlater]

/-- Every span of `translateTitles` covers an occurrence of a key that starts at a
word boundary and is followed by units accepted by the lookahead; its replacement is the
value of the key, capitalized when the first matched unit is its own upper case. -/
theorem translateTitles_mem {tbl : Nat → List Nat} {fuel : Nat} {text : JSString}
    {dict : Dict} {l : List Span} (h : translateTitles tbl fuel text dict = some l)
    {s : Span} (hs : s ∈ l) :
    ∃ e ∈ dict, ∃ i c m,
      isWordBoundary text i = true ∧
      EqualUpToCase tbl (slice text i (i + e.1.length)) e.1 ∧
      atomsAccept tbl true text [.whiteSpace, .range 65 90] (i + e.1.length) = true ∧
      slice text i (i + e.1.length) = c :: m ∧
      s = ⟨i, i + e.1.length, c :: m,
        if [c] = toUpperCase tbl c then capitalize tbl e.2 else e.2⟩ := by
  induction dict generalizing l with
  | nil =>
    simp only [translateTitles, Option.some.injEq] at h
    subst h; cases hs
  | cons e rest ih =>
    obtain ⟨american, british⟩ := e
    rw [translateTitles, titleRegExp_eq] at h
    simp only at h
    cases hh : execLoop tbl ⟨[Node.wordBoundary] ++ american.map (fun c => Node.atom (.char c)) ++
      [Node.lookahead [.whiteSpace, .range 65 90]], true⟩ text (titleSpan tbl text british)
      fuel 0 with
    | none => rw [hh] at h; simp at h
    | some here =>
      cases hl : translateTitles tbl fuel text rest with
      | none => rw [hh, hl] at h; simp at h
      | some later =>
        rw [hh, hl] at h
        simp only [Option.some.injEq] at h
        subst h
        rcases List.mem_append.mp hs with m | m
        · obtain ⟨i, st, -, hm, hmk⟩ := execLoop_mem hh m
          obtain ⟨⟨b1, b2, b3⟩, rfl⟩ := (matchNodes_title_iff tbl text american i st).mp hm
          unfold titleSpan at hmk
          simp only at hmk
          cases hsl : slice text i (i + american.length) with
          | nil => rw [hsl] at hmk; cases hmk
          | cons c m' =>
            rw [hsl] at hmk
            simp only [Option.some.injEq] at hmk
            exact ⟨(american, british), List.mem_cons_self _ _, i, c, m', b1, b2, b3, hsl,
              hmk.symm⟩
        · obtain ⟨e, he, r⟩ := ih hl m
          exact ⟨e, List.mem_cons_of_mem _ he, r⟩

theorem slice_append (text : JSString) (i j k : Nat) (h1 : i ≤ j) (h2 : j ≤ k) :
    slice text i j ++ slice text j k = slice text i k := by
  unfold slice
  have e1 : text.drop j = (text.drop i).drop (j - i) := by
    rw [List.drop_drop]; congr 1; omega
  have e2 : k - i = (j - i) + (k - j) := by omega
  rw [e1, e2, List.take_add]

theorem slice_singleton (text : JSString) (i c : Nat) (h : text[i]? = some c) :
    slice text i (i + 1) = [c] := by
  have := slice_cons text i 0 c h
  simpa [slice] using this

theorem accepts_digit_iff (tbl : Nat → List Nat) (c : Nat) :
    Atom.accepts tbl false .digit c = true ↔ 48 ≤ c ∧ c ≤ 57 := by
  simp only [Atom.accepts, Atom.units, Bool.false_eq_true, if_false, List.contains_eq_any_beq,
    List.any_eq_true, List.mem_range', beq_iff_eq]
  constructor
  · rintro ⟨x, ⟨k, hk, rfl⟩, rfl⟩
    omega
  · rintro ⟨h1, h2⟩
    exact ⟨c, ⟨c - 48, by omega, by omega⟩, rfl⟩


/-- The shape of a match of a time pattern with separator `sep`. -/
theorem matchNodes_time_shape {tbl : Nat → List Nat} {text : JSString} {sep i : Nat}
    {st : MatchState} (h : matchNodes tbl false text (timeNodes sep) i [] [] = some st) :
    ∃ hrs mins : JSString,
      (hrs.length = 1 ∨ hrs.length = 2) ∧ mins.length = 2 ∧
      (∀ c ∈ hrs, isDigit c = true) ∧ (∀ c ∈ mins, isDigit c = true) ∧
      isWordBoundary text i = true ∧ isWordBoundary text (i + hrs.length + 3) = true ∧
      i + hrs.length + 3 ≤ text.length ∧
      slice text i (i + hrs.length + 3) = hrs ++ [sep] ++ mins ∧
      st.endIndex = i + hrs.length + 3 ∧
      capture text st 2 1 = hrs ∧ capture text st 2 2 = mins := by
  obtain ⟨n, hn, r1, hsep, r2, w1, w2, rfl⟩ := matchNodes_time h
  obtain ⟨l1, d1⟩ := (runAccepts_iff tbl false text .digit n i).mp r1
  obtain ⟨l2, d2⟩ := (runAccepts_iff tbl false text .digit 2 (i + n + 1)).mp r2
  have e3 : i + n + 1 + 2 = i + n + 3 := by omega
  rw [e3] at l2 d2
  have hb : i + n + 3 ≤ text.length := by
    rw [slice_length] at l2
    omega
  refine ⟨slice text i (i + n), slice text (i + n + 1) (i + n + 3), ?_, l2, ?_, ?_, ?_, ?_,
    ?_, ?_, ?_, ?_, ?_⟩
  · rw [l1]; exact hn
  · intro c hc
    have := (accepts_digit_iff tbl c).mp (d1 c hc)
    simp [isDigit, this]
  · intro c hc
    have := (accepts_digit_iff tbl c).mp (d2 c hc)
    simp [isDigit, this]
  · exact w1
  · rw [l1]; exact w2
  · rw [l1]; exact hb
  · rw [l1, ← slice_singleton text (i + n) sep hsep, slice_append text i (i + n) (i + n + 1)
      (by omega) (by omega), slice_append text i (i + n + 1) (i + n + 3) (by omega) (by omega)]
  · rw [l1]
  · simp [capture]
  · simp [capture]

theorem progress_time (tbl : Nat → List Nat) (text : JSString) (sep : Nat) :
    Progress tbl ⟨timeNodes sep, false⟩ text := by
  intro i st h
  obtain ⟨hrs, mins, -, -, -, -, -, -, hb, -, he, -, -⟩ := matchNodes_time_shape h
  rw [he]
  exact ⟨by omega, hb⟩

/-- The scanning loop of a time matcher returns. -/
theorem timeLoop_returns (tbl : Nat → List Nat) (fuel : Nat) (text : JSString)
    (sep other : Nat) (hf : text.length < fuel) :
    ∃ l, execLoop tbl ⟨timeNodes sep, false⟩ text (timeSpan text other) fuel 0 = some l :=
  execLoop_returns (progress_time tbl text sep) (fun _ _ _ => ⟨_, rfl⟩) fuel 0 (by omega)
    (by omega)

/-- Every span of a time matcher: one or two digits, the separator and two digits between
word boundaries; the replacement has the other separator between the same digits. -/
theorem timeLoop_mem {tbl : Nat → List Nat} {fuel : Nat} {text : JSString} {sep other : Nat}
    {l : List Span}
    (h : execLoop tbl ⟨timeNodes sep, false⟩ text (timeSpan text other) fuel 0 = some l)
    {s : Span} (hs : s ∈ l) :
    ∃ (i : Nat) (hrs mins : JSString),
      (hrs.length = 1 ∨ hrs.length = 2) ∧ mins.length = 2 ∧
      (∀ c ∈ hrs, isDigit c = true) ∧ (∀ c ∈ mins, isDigit c = true) ∧
      isWordBoundary text i = true ∧ isWordBoundary text (i + hrs.length + 3) = true ∧
      i + hrs.length + 3 ≤ text.length ∧
      slice text i (i + hrs.length + 3) = hrs ++ [sep] ++ mins ∧
      s = ⟨i, i + hrs.length + 3, hrs ++ [sep] ++ mins, hrs ++ [other] ++ mins⟩ := by
  obtain ⟨i, st, -, hm, hmk⟩ := execLoop_mem h hs
  obtain ⟨hrs, mins, a1, a2, a3, a4, a5, a6, a7, a8, a9, a10, a11⟩ := matchNodes_time_shape hm
  refine ⟨i, hrs, mins, a1, a2, a3, a4, a5, a6, a7, a8, ?_⟩
  simp only [timeSpan, Option.some.injEq] at hmk
  rw [← hmk, a9, a10, a11, a8]

/-! ## Inverted dictionaries and the pooled spans -/

theorem mem_insertNew {key value : JSString} {obj : Dict} {e : JSString × JSString}
    (h : e ∈ insertNew key value obj) : e = (key, value) ∨ e ∈ obj := by
  induction obj with
  | nil => simpa [insertNew] using h
  | cons a rest ih =>
    obtain ⟨k, v⟩ := a
    rw [insertNew] at h
    split at h
    · rcases List.mem_cons.mp h with r | r
      · exact Or.inl r
      · exact Or.inr r
    · rcases List.mem_cons.mp h with r | r
      · exact Or.inr (r ▸ List.mem_cons_self _ _)
      · rcases ih r with q | q
        · exact Or.inl q
        · exact Or.inr (List.mem_cons_of_mem _ q)

theorem mem_assign {key value : JSString} {obj : Dict} {e : JSString × JSString}
    (h : e ∈ assign key value obj) : e = (key, value) ∨ e ∈ obj := by
  unfold assign at h
  split at h
  · exact Or.inr h
  · split at h
    · obtain ⟨a, ha, rfl⟩ := List.mem_map.mp h
      by_cases hk : a.1 = key
      · left; simp [hk]
      · right; simp [hk, ha]
    · exact mem_insertNew h

theorem mem_foldl_assign {dict : Dict} {acc : Dict} {e : JSString × JSString}
    (h : e ∈ dict.foldl (fun reversed e => assign e.2 e.1 reversed) acc) :
    e ∈ acc ∨ (e.2, e.1) ∈ dict := by
  induction dict generalizing acc with
  | nil => exact Or.inl h
  | cons a rest ih =>
    rw [List.foldl_cons] at h
    rcases ih h with r | r
    · rcases mem_assign r with q | q
      · right; rw [q]; exact List.mem_cons_self _ _
      · exact Or.inl q
    · exact Or.inr (List.mem_cons_of_mem _ r)

/-- Every entry of the inverted dictionary is an entry of the dictionary, swapped. -/
theorem mem_reverseDict {dict : Dict} {e : JSString × JSString} (h : e ∈ reverseDict dict) :
    (e.2, e.1) ∈ dict := by
  rcases mem_foldl_assign h with r | r
  · cases r
  · exact r

theorem nonEmptyKeys_reverseDict {dict : Dict} (h : NonEmptyValues dict) :
    NonEmptyKeys (reverseDict dict) := fun _ he => h _ (mem_reverseDict he)

/-- The four matchers of either direction return for well-formed dictionaries. -/
theorem pooled_returns (tbl : Nat → List Nat) (d : Dictionaries) (fuel : Nat)
    (text : JSString) (americanToBritish : Bool) (hd : WellFormed d)
    (hf : text.length < fuel) :
    ∃ l, pooled tbl d fuel text americanToBritish = some l := by
  obtain ⟨h1, h2, h3, h4, h5, h6⟩ := hd
  unfold pooled
  cases americanToBritish with
  | true =>
    obtain ⟨a, ha⟩ := translateTerms_returns tbl fuel text _ h1 hf
    obtain ⟨b, hb⟩ := translateTerms_returns tbl fuel text _ h3 hf
    obtain ⟨c, hc⟩ := translateTitles_returns tbl fuel text _ h5 hf
    obtain ⟨e, he⟩ := timeLoop_returns tbl fuel text 58 46 hf
    refine ⟨a ++ b ++ c ++ e, ?_⟩
    simp only [if_true, ha, hb, hc]
    unfold translateTimeAmericanToBritish
    have : americanTimeRegExp = ⟨timeNodes 58, false⟩ := rfl
    rw [this, he]
  | false =>
    obtain ⟨a, ha⟩ := translateTerms_returns tbl fuel text _ h2 hf
    obtain ⟨b, hb⟩ := translateTerms_returns tbl fuel text _ (nonEmptyKeys_reverseDict h4) hf
    obtain ⟨c, hc⟩ := translateTitles_returns tbl fuel text _ (nonEmptyKeys_reverseDict h6) hf
    obtain ⟨e, he⟩ := timeLoop_returns tbl fuel text 46 58 hf
    refine ⟨a ++ b ++ c ++ e, ?_⟩
    simp only [Bool.false_eq_true, if_false, ha, hb, hc]
    unfold translateTimeBritishToAmerican
    have : britishTimeRegExp = ⟨timeNodes 46, false⟩ := rfl
    rw [this, he]

/-! ## The compositor -/

theorem insertDesc_perm (key : Span → Nat) (a : Span) (l : List Span) :
    (insertDesc key a l).Perm (a :: l) := by
  induction l with
  | nil => exact List.Perm.refl _
  | cons b rest ih =>
    rw [insertDesc]
    split
    · exact ((List.Perm.cons b ih).trans (List.Perm.swap a b rest))
    · exact List.Perm.refl _

theorem sortDesc_perm (key : Span → Nat) (l : List Span) : (sortDesc key l).Perm l := by
  induction l with
  | nil => exact List.Perm.refl _
  | cons a rest ih =>
    rw [sortDesc]
    exact (insertDesc_perm key a _).trans (List.Perm.cons a ih)

theorem sortDesc_ne_nil {key : Span → Nat} {l : List Span} (h : l ≠ []) :
    sortDesc key l ≠ [] := by
  intro e
  have := (sortDesc_perm key l).length_eq
  rw [e] at this
  cases l with
  | nil => exact h rfl
  | cons a rest => simp at this

theorem uniqueFrom_nil_ne_nil {l : List Span} (h : l ≠ []) : uniqueFrom [] l ≠ [] := by
  cases l with
  | nil => exact absurd rfl h
  | cons a rest => simp [uniqueFrom]

theorem foldl_applyOne_infix (l : List Span) (h : l ≠ []) (r : JSString) :
    highlightOpen <:+: l.foldl applyOne r := by
  induction l generalizing r with
  | nil => exact absurd rfl h
  | cons t rest ih =>
    cases rest with
    | nil =>
      refine ⟨r.take t.start, t.replacement ++ highlightClose ++ r.drop t.end_, ?_⟩
      simp [applyOne, List.append_assoc]
    | cons t' rest' => exact ih (by simp) (applyOne r t)

/-- A non-empty list of spans leaves an opening marker in the composited text. -/
theorem applyTranslations_infix (text : JSString) (l : List Span) (h : l ≠ []) :
    highlightOpen <:+: applyTranslations text l :=
  foldl_applyOne_infix _ (sortDesc_ne_nil (uniqueFrom_nil_ne_nil h)) text

theorem ne_literal_of_infix {tr : JSString} (h : highlightOpen <:+: tr) :
    tr ≠ str "Everything looks good to me!" := by
  intro e
  have h60 : 60 ∈ tr := by
    obtain ⟨a, b, rfl⟩ := h
    have : 60 ∈ highlightOpen := by decide
    simp [this]
  rw [e] at h60
  revert h60
  decide

/-- The body of `translate` after validation. -/
theorem translate_valid (tbl : Nat → List Nat) (d : Dictionaries) (fuel : Nat)
    (text locale : JSString) (ht : text ≠ [])
    (hl : locale = str "american-to-british" ∨ locale = str "british-to-american") :
    translate tbl d fuel (some text) (some locale) =
      match pooled tbl d fuel text (locale = str "american-to-british") with
      | none => none
      | some translations =>
        if translations.length = 0 then
          some (.success text (str "Everything looks good to me!"))
        else
          some (.success text
            (applyTranslations text (sortDesc (fun t => t.original.length) translations))) := by
  cases text with
  | nil => exact absurd rfl ht
  | cons c cs =>
    rcases hl with rfl | rfl
    · rfl
    · rfl

/-! ## Input validation -/

/-- Claim C1: `translate` checks its inputs in a fixed order. An absent text gives
"Required field(s) missing" for every direction value; the empty text gives "No text to
translate" for every direction value; a non-empty text with an absent direction gives
"Required field(s) missing". -/
theorem translate_validation_order (tbl : Nat → List Nat) (d : Dictionaries) (fuel : Nat) :
    (∀ locale, translate tbl d fuel none locale =
        some (.error (str "Required field(s) missing"))) ∧
    (∀ locale, translate tbl d fuel (some []) locale =
        some (.error (str "No text to translate"))) ∧
    (∀ text, text ≠ [] → translate tbl d fuel (some text) none =
        some (.error (str "Required field(s) missing"))) := by
  refine ⟨fun _ => rfl, fun _ => rfl, ?_⟩
  intro text h
  cases text with
  | nil => exact absurd rfl h
  | cons c cs => rfl

/-- Witness for C1 at the text "Hello" with no direction. -/
theorem translate_validation_order_witness :
    str "Hello" ≠ [] ∧
    translate plainTable sampleDictionaries 0 (some (str "Hello")) none =
      some (.error (str "Required field(s) missing")) :=
  ⟨by decide, (translate_validation_order plainTable sampleDictionaries 0).2.2 (str "Hello")
    (by decide)⟩

/-- Claim C2, as stated, fails for the empty direction string: it is a provided string
that is neither recognised value, and the result is "Required field(s) missing". -/
theorem translate_empty_locale_counterexample :
    (str "" ≠ str "american-to-british" ∧ str "" ≠ str "british-to-american") ∧
    translate plainTable sampleDictionaries 0 (some (str "Hello")) (some (str "")) =
      some (.error (str "Required field(s) missing")) ∧
    translate plainTable sampleDictionaries 0 (some (str "Hello")) (some (str "")) ≠
      some (.error (str "Invalid value for locale field")) := by
  decide

/-- Claim C2 (amended): for every non-empty text, every non-empty direction string other
than "american-to-british" and "british-to-american" gives "Invalid value for locale
field", and the empty direction string, like an absent direction, gives "Required field(s)
missing". -/
theorem translate_invalid_locale (tbl : Nat → List Nat) (d : Dictionaries) (fuel : Nat)
    (text : JSString) (ht : text ≠ []) :
    (∀ locale : JSString, locale ≠ [] → locale ≠ str "american-to-british" →
      locale ≠ str "british-to-american" →
      translate tbl d fuel (some text) (some locale) =
        some (.error (str "Invalid value for locale field"))) ∧
    translate tbl d fuel (some text) (some []) =
      some (.error (str "Required field(s) missing")) ∧
    translate tbl d fuel (some text) (some []) = translate tbl d fuel (some text) none := by
  cases text with
  | nil => exact absurd rfl ht
  | cons c cs =>
    refine ⟨?_, rfl, rfl⟩
    intro locale hl h1 h2
    cases locale with
    | nil => exact absurd rfl hl
    | cons l ls => simp [translate, h1, h2]

/-- Witness for C2 (amended) at the text "Hello": the direction "en-us" is invalid, the
empty direction is reported as missing. -/
theorem translate_invalid_locale_witness :
    translate plainTable sampleDictionaries 0 (some (str "Hello")) (some (str "en-us")) =
      some (.error (str "Invalid value for locale field")) ∧
    translate plainTable sampleDictionaries 0 (some (str "Hello")) (some (str "")) =
      some (.error (str "Required field(s) missing")) :=
  have h := translate_invalid_locale plainTable sampleDictionaries 0 (str "Hello")
    (by decide)
  ⟨h.1 (str "en-us") (by decide) (by decide) (by decide), h.2.1⟩

theorem sampleDictionaries_wellFormed : WellFormed sampleDictionaries := by
  decide

/-! ## The result of a valid call -/

/-- Claim C3: for a non-empty text and a recognised direction, whenever the four matchers
return their spans: if there is none the translation is the literal "Everything looks good
to me!"; otherwise it is the composited text, which contains the opening highlight marker
and differs from that literal. For well-formed dictionaries and enough iterations the
matchers do return. -/
theorem translate_translation_field (tbl : Nat → List Nat) (d : Dictionaries) (fuel : Nat)
    (text locale : JSString) (ht : text ≠ [])
    (hl : locale = str "american-to-british" ∨ locale = str "british-to-american") :
    (∀ spans, pooled tbl d fuel text (locale = str "american-to-british") = some spans →
      (spans = [] → translate tbl d fuel (some text) (some locale) =
        some (.success text (str "Everything looks good to me!"))) ∧
      (spans ≠ [] →
        translate tbl d fuel (some text) (some locale) =
          some (.success text
            (applyTranslations text (sortDesc (fun t => t.original.length) spans))) ∧
        highlightOpen <:+:
          applyTranslations text (sortDesc (fun t => t.original.length) spans) ∧
        applyTranslations text (sortDesc (fun t => t.original.length) spans) ≠
          str "Everything looks good to me!")) ∧
    (WellFormed d → text.length < fuel →
      ∃ spans, pooled tbl d fuel text (locale = str "american-to-british") = some spans) := by
  refine ⟨?_, fun hd hf => pooled_returns tbl d fuel text _ hd hf⟩
  intro spans hp
  refine ⟨?_, ?_⟩
  · intro e
    rw [translate_valid tbl d fuel text locale ht hl, hp, e]
    rfl
  · intro hne
    have hlen : spans.length ≠ 0 := fun e => hne (List.length_eq_zero.mp e)
    have hi := applyTranslations_infix text _
      (@sortDesc_ne_nil (fun t => t.original.length) _ hne)
    refine ⟨?_, hi, ne_literal_of_infix hi⟩
    rw [translate_valid tbl d fuel text locale ht hl, hp]
    simp only [hlen, if_false]

/-- Witness for C3 at "I ate a popsicle yesterday." in the american-to-british direction:
one span is found and the translation is the composited text. -/
theorem translate_translation_field_witness :
    pooled plainTable sampleDictionaries 28 (str "I ate a popsicle yesterday.")
      (str "american-to-british" = str "american-to-british") =
      some [⟨8, 16, str "popsicle", str "ice lolly"⟩] ∧
    translate plainTable sampleDictionaries 28
      (some (str "I ate a popsicle yesterday.")) (some (str "american-to-british")) =
      some (.success (str "I ate a popsicle yesterday.")
        (applyTranslations (str "I ate a popsicle yesterday.")
          (sortDesc (fun t => t.original.length)
            [⟨8, 16, str "popsicle", str "ice lolly"⟩]))) ∧
    applyTranslations (str "I ate a popsicle yesterday.")
      (sortDesc (fun t => t.original.length) [⟨8, 16, str "popsicle", str "ice lolly"⟩]) ≠
      str "Everything looks good to me!" :=
  have h := ((translate_translation_field plainTable sampleDictionaries 28
    (str "I ate a popsicle yesterday.") (str "american-to-british") (by decide)
    (Or.inl rfl)).1 [⟨8, 16, str "popsicle", str "ice lolly"⟩] (by decide)).2 (by decide)
  ⟨by decide, h.1, h.2.2⟩

/-- Claim C4: for a non-empty text and a recognised direction, whatever `translate`
returns is a success descriptor whose text field is the input text, never an error
descriptor; for well-formed dictionaries and enough iterations it does return one. -/
theorem translate_echoes_text (tbl : Nat → List Nat) (d : Dictionaries) (fuel : Nat)
    (text locale : JSString) (ht : text ≠ [])
    (hl : locale = str "american-to-british" ∨ locale = str "british-to-american") :
    (∀ r, translate tbl d fuel (some text) (some locale) = some r →
      ∃ translation, r = .success text translation) ∧
    (WellFormed d → text.length < fuel →
      ∃ translation, translate tbl d fuel (some text) (some locale) =
        some (.success text translation)) := by
  have key : ∀ spans, pooled tbl d fuel text (locale = str "american-to-british") = some spans →
      ∃ translation, translate tbl d fuel (some text) (some locale) =
        some (.success text translation) := by
    intro spans hp
    rw [translate_valid tbl d fuel text locale ht hl, hp]
    by_cases h : spans.length = 0
    · exact ⟨_, by simp only [h, if_true]; rfl⟩
    · exact ⟨_, by simp only [h, if_false]; rfl⟩
  refine ⟨?_, ?_⟩
  · intro r hr
    cases hp : pooled tbl d fuel text (locale = str "american-to-british") with
    | none =>
      rw [translate_valid tbl d fuel text locale ht hl, hp] at hr
      cases hr
    | some spans =>
      obtain ⟨tr, htr⟩ := key spans hp
      rw [htr] at hr
      exact ⟨tr, (Option.some.inj hr).symm⟩
  · intro hd hf
    obtain ⟨spans, hp⟩ := pooled_returns tbl d fuel text (locale = str "american-to-british")
      hd hf
    exact key spans hp

/-- Witness for C4 at "Mangoes are my favorite fruit." in the british-to-american
direction. -/
theorem translate_echoes_text_witness :
    ∃ translation, translate plainTable sampleDictionaries 31
      (some (str "Mangoes are my favorite fruit.")) (some (str "british-to-american")) =
      some (.success (str "Mangoes are my favorite fruit.") translation) :=
  (translate_echoes_text plainTable sampleDictionaries 31
    (str "Mangoes are my favorite fruit.") (str "british-to-american")
    (by decide) (Or.inr rfl)).2 sampleDictionaries_wellFormed (by decide)

/-- Claim C5: when the matchers of a recognised direction find exactly one span in a
non-empty text, the translation is the text before the span, the opening marker, the
replacement, the closing marker and the text after the span. -/
theorem translate_single_span (tbl : Nat → List Nat) (d : Dictionaries) (fuel : Nat)
    (text locale : JSString) (s : Span) (ht : text ≠ [])
    (hl : locale = str "american-to-british" ∨ locale = str "british-to-american")
    (hp : pooled tbl d fuel text (locale = str "american-to-british") = some [s]) :
    translate tbl d fuel (some text) (some locale) =
      some (.success text (text.take s.start ++ highlightOpen ++ s.replacement ++
        highlightClose ++ text.drop s.end_)) := by
  rw [translate_valid tbl d fuel text locale ht hl, hp]
  simp [applyTranslations, sortDesc, insertDesc, uniqueFrom, applyOne]

/-- Witness for C5: with "popsicle" mapped to "ice lolly", "I ate a popsicle yesterday."
becomes "I ate a <span class="highlight">ice lolly</span> yesterday.". -/
theorem translate_single_span_witness :
    pooled plainTable sampleDictionaries 28 (str "I ate a popsicle yesterday.")
      (str "american-to-british" = str "american-to-british") =
      some [⟨8, 16, str "popsicle", str "ice lolly"⟩] ∧
    translate plainTable sampleDictionaries 28 (some (str "I ate a popsicle yesterday."))
      (some (str "american-to-british")) =
      some (.success (str "I ate a popsicle yesterday.")
        (str "I ate a <span class=\"highlight\">ice lolly</span> yesterday.")) :=
  ⟨by decide,
   (translate_single_span plainTable sampleDictionaries 28
      (str "I ate a popsicle yesterday.") (str "american-to-british")
      ⟨8, 16, str "popsicle", str "ice lolly"⟩ (by decide) (Or.inl rfl) (by decide)).trans
      (by decide)⟩

/-! ## Term mode -/

theorem execLoop_succ {tbl : Nat → List Nat} {re : RegExp} {text : JSString}
    {mk : Nat → MatchState → Option Span} {fuel lastIndex : Nat} {l : List Span}
    (h : execLoop tbl re text mk fuel lastIndex = some l) :
    execLoop tbl re text mk (fuel + 1) lastIndex = some l := by
  induction fuel generalizing lastIndex l with
  | zero => simp [execLoop] at h
  | succ n ih =>
    rw [execLoop] at h
    rw [execLoop]
    cases he : exec tbl re text lastIndex with
    | none => rw [he] at h; exact h
    | some r =>
      obtain ⟨j, st⟩ := r
      rw [he] at h
      simp only at h ⊢
      cases hm : mk j st with
      | none => rw [hm] at h; simp at h
      | some s0 =>
        cases hr : execLoop tbl re text mk n st.endIndex with
        | none => rw [hm, hr] at h; simp at h
        | some rest =>
          rw [hm, hr] at h
          rw [ih hr]
          exact h

/-- More iterations do not change what the scanning loop returns. -/
theorem execLoop_mono {tbl : Nat → List Nat} {re : RegExp} {text : JSString}
    {mk : Nat → MatchState → Option Span} {fuel fuel' lastIndex : Nat} {l : List Span}
    (h : execLoop tbl re text mk fuel lastIndex = some l) (hle : fuel ≤ fuel') :
    execLoop tbl re text mk fuel' lastIndex = some l := by
  induction hle with
  | refl => exact h
  | step _ ih => exact execLoop_succ ih

/-- More iterations do not change what `translateTerms` returns. -/
theorem translateTerms_mono {tbl : Nat → List Nat} {fuel fuel' : Nat} {text : JSString}
    {dict : Dict} {l : List Span} (h : translateTerms tbl fuel text dict = some l)
    (hle : fuel ≤ fuel') : translateTerms tbl fuel' text dict = some l := by
  induction dict generalizing l with
  | nil => exact h
  | cons e rest ih =>
    obtain ⟨american, british⟩ := e
    rw [translateTerms, termRegExp_eq] at h ⊢
    simp only at h ⊢
    cases hh : execLoop tbl ⟨[Node.wordBoundary] ++ american.map (fun c => Node.atom (.char c)) ++
      [Node.wordBoundary], true⟩ text (termSpan text british) fuel 0 with
    | none => rw [hh] at h; simp at h
    | some here =>
      cases hl : translateTerms tbl fuel text rest with
      | none => rw [hh, hl] at h; simp at h
      | some later =>
        rw [hh, hl] at h
        rw [execLoop_mono hh hle, ih hl]
        exact h

/-- The result of `translateTerms` does not depend on the number of iterations allowed. -/
theorem translateTerms_unique {tbl : Nat → List Nat} {fuel fuel' : Nat} {text : JSString}
    {dict : Dict} {l l' : List Span} (h : translateTerms tbl fuel text dict = some l)
    (h' : translateTerms tbl fuel' text dict = some l') : l = l' := by
  rcases Nat.le_total fuel fuel' with c | c
  · have := translateTerms_mono h c
    rw [h'] at this
    exact (Option.some.inj this).symm
  · have := translateTerms_mono h' c
    rw [h] at this
    exact Option.some.inj this

/-- A whole-word occurrence of a key is pushed by `translateTerms`, unless it starts inside
an occurrence of the same key that was pushed. -/
theorem translateTerms_complete {tbl : Nat → List Nat} {fuel : Nat} {text : JSString}
    {dict : Dict} {l : List Span} (hd : NonEmptyKeys dict)
    (h : translateTerms tbl fuel text dict = some l)
    {e : JSString × JSString} (he : e ∈ dict) {i : Nat}
    (ho : WholeWordOccurrence tbl text e.1 i) :
    (⟨i, i + e.1.length, slice text i (i + e.1.length), e.2⟩ : Span) ∈ l ∨
    ∃ j, j < i ∧ i < j + e.1.length ∧ WholeWordOccurrence tbl text e.1 j ∧
      (⟨j, j + e.1.length, slice text j (j + e.1.length), e.2⟩ : Span) ∈ l := by
  induction dict generalizing l with
  | nil => cases he
  | cons a rest ih =>
    obtain ⟨american, british⟩ := a
    rw [translateTerms, termRegExp_eq] at h
    simp only at h
    cases hh : execLoop tbl ⟨[Node.wordBoundary] ++ american.map (fun c => Node.atom (.char c)) ++
      [Node.wordBoundary], true⟩ text (termSpan text british) fuel 0 with
    | none => rw [hh] at h; simp at h
    | some here =>
      cases hl : translateTerms tbl fuel text rest with
      | none => rw [hh, hl] at h; simp at h
      | some later =>
        rw [hh, hl] at h
        simp only [Option.some.injEq] at h
        subst h
        rcases List.mem_cons.mp he with r | r
        · subst r
          have hk : american ≠ [] := hd (american, british) (List.mem_cons_self _ _)
          have hm := (matchNodes_term_iff tbl text american i ⟨i + american.length, [], []⟩).mpr
            ⟨⟨ho.2.1, ho.1, ho.2.2⟩, rfl⟩
          rcases execLoop_complete (progress_term tbl text american hk) hh (Nat.zero_le i) hm
            with ⟨s, hs, e1⟩ | ⟨j, st', a1, a2, a3, s, hs, e1⟩
          · left
            simp only [termSpan, Option.some.injEq] at e1
            rw [e1]
            exact List.mem_append_left _ hs
          · right
            obtain ⟨⟨b1, b2, b3⟩, rfl⟩ := (matchNodes_term_iff tbl text american j st').mp a3
            refine ⟨j, a1, a2, ⟨b2, b1, b3⟩, ?_⟩
            simp only [termSpan, Option.some.injEq] at e1
            rw [e1]
            exact List.mem_append_left _ hs
        · rcases ih (fun x hx => hd x (List.mem_cons_of_mem _ hx)) hl r with q | ⟨j, q1, q2, q3, q4⟩
          · exact Or.inl (List.mem_append_right _ q)
          · exact Or.inr ⟨j, q1, q2, q3, List.mem_append_right _ q4⟩

/-- Claim C6, as stated, fails when two occurrences of one key overlap: in "a a a" the key
"a a" occurs as a whole word at offsets 0 and 2, and only the occurrence at 0 yields a
span, for any number of iterations. -/
theorem translateTerms_overlap_counterexample :
    NonEmptyKeys [(str "a a", str "x")] ∧
    WholeWordOccurrence plainTable (str "a a a") (str "a a") 2 ∧
    translateTerms plainTable 6 (str "a a a") [(str "a a", str "x")] =
      some [⟨0, 3, str "a a", str "x"⟩] ∧
    ∀ fuel spans, translateTerms plainTable fuel (str "a a a") [(str "a a", str "x")] =
      some spans → ¬ ∃ s ∈ spans, s.start = 2 := by
  have h6 : translateTerms plainTable 6 (str "a a a") [(str "a a", str "x")] =
      some [⟨0, 3, str "a a", str "x"⟩] := by decide
  refine ⟨?_, ?_, h6, ?_⟩
  · decide
  · decide
  · intro fuel spans h
    rw [translateTerms_unique h h6]
    decide

/-- Claim C6 (amended): for a dictionary with non-empty keys, `translateTerms` returns,
and every whole-word occurrence of a key, in any letter case, yields a span that covers
exactly that occurrence and whose replacement is the mapped value verbatim, unless the
occurrence starts inside an occurrence of the same key further left that yielded such a
span. -/
theorem translateTerms_occurrences (tbl : Nat → List Nat) (fuel : Nat) (text : JSString)
    (dict : Dict) (hd : NonEmptyKeys dict) (hf : text.length < fuel) :
    ∃ spans, translateTerms tbl fuel text dict = some spans ∧
      ∀ e ∈ dict, ∀ i, WholeWordOccurrence tbl text e.1 i →
        (⟨i, i + e.1.length, slice text i (i + e.1.length), e.2⟩ : Span) ∈ spans ∨
        ∃ j, j < i ∧ i < j + e.1.length ∧ WholeWordOccurrence tbl text e.1 j ∧
          (⟨j, j + e.1.length, slice text j (j + e.1.length), e.2⟩ : Span) ∈ spans := by
  obtain ⟨spans, hs⟩ := translateTerms_returns tbl fuel text dict hd hf
  exact ⟨spans, hs, fun e he i ho => translateTerms_complete hd hs he ho⟩

/-- Witness for C6 (amended): "FAVOR" in upper case is an occurrence of the key "favor" and
yields a span with the replacement "favour". -/
theorem translateTerms_occurrences_witness :
    NonEmptyKeys [(str "favor", str "favour")] ∧
    WholeWordOccurrence plainTable (str "A FAVOR, please") (str "favor") 2 ∧
    translateTerms plainTable 16 (str "A FAVOR, please") [(str "favor", str "favour")] =
      some [⟨2, 7, str "FAVOR", str "favour"⟩] ∧
    ∃ spans, translateTerms plainTable 16 (str "A FAVOR, please")
        [(str "favor", str "favour")] = some spans ∧
      ∀ e ∈ [(str "favor", str "favour")], ∀ i,
        WholeWordOccurrence plainTable (str "A FAVOR, please") e.1 i →
        (⟨i, i + e.1.length, slice (str "A FAVOR, please") i (i + e.1.length), e.2⟩ : Span)
          ∈ spans ∨
        ∃ j, j < i ∧ i < j + e.1.length ∧
          WholeWordOccurrence plainTable (str "A FAVOR, please") e.1 j ∧
          (⟨j, j + e.1.length, slice (str "A FAVOR, please") j (j + e.1.length), e.2⟩ : Span)
            ∈ spans :=
  ⟨by decide, by decide,
   by decide,
   translateTerms_occurrences plainTable 16 (str "A FAVOR, please")
     [(str "favor", str "favour")] (by decide) (by decide)⟩

/-! ## Position keys -/

theorem decimalAux_spec (fuel n : Nat) (acc : List Nat) (h : n < fuel) :
    ∃ ds, decimalAux fuel n acc = ds ++ acc ∧ (∀ d ∈ ds, 48 ≤ d ∧ d ≤ 57) ∧
      digitsNumber ds = n := by
  induction fuel generalizing n acc with
  | zero => omega
  | succ f ih =>
    rw [decimalAux]
    by_cases h0 : n / 10 = 0
    · rw [if_pos h0]
      refine ⟨[48 + n % 10], rfl, ?_, ?_⟩
      · intro d hd
        rw [List.mem_singleton] at hd
        omega
      · simp [digitsNumber]
        omega
    · rw [if_neg h0]
      obtain ⟨ds, e, hdig, hv⟩ := ih (n / 10) ((48 + n % 10) :: acc) (by omega)
      refine ⟨ds ++ [48 + n % 10], ?_, ?_, ?_⟩
      · rw [e]; simp
      · intro d hd
        rcases List.mem_append.mp hd with r | r
        · exact hdig d r
        · rw [List.mem_singleton] at r
          omega
      · unfold digitsNumber at hv ⊢
        rw [List.foldl_append, hv]
        simp
        omega

theorem decimal_spec (n : Nat) :
    (∀ d ∈ decimal n, 48 ≤ d ∧ d ≤ 57) ∧ digitsNumber (decimal n) = n := by
  obtain ⟨ds, e, h1, h2⟩ := decimalAux_spec (n + 1) n [] (by omega)
  rw [List.append_nil] at e
  unfold decimal
  rw [e]
  exact ⟨h1, h2⟩

theorem append_cons_inj {x : Nat} {a1 a2 b1 b2 : List Nat} (ha : x ∉ a1) (hb : x ∉ b1)
    (h : a1 ++ x :: a2 = b1 ++ x :: b2) : a1 = b1 ∧ a2 = b2 := by
  induction a1 generalizing b1 with
  | nil =>
    cases b1 with
    | nil => exact ⟨rfl, by simpa using h⟩
    | cons y ys =>
      simp only [List.nil_append, List.cons_append, List.cons.injEq] at h
      exact absurd (h.1 ▸ List.mem_cons_self _ _) hb
  | cons y ys ih =>
    cases b1 with
    | nil =>
      simp only [List.nil_append, List.cons_append, List.cons.injEq] at h
      exact absurd (h.1 ▸ List.mem_cons_self _ _) ha
    | cons z zs =>
      simp only [List.cons_append, List.cons.injEq] at h
      obtain ⟨r1, r2⟩ := ih (fun m => ha (List.mem_cons_of_mem _ m))
        (fun m => hb (List.mem_cons_of_mem _ m)) h.2
      exact ⟨by rw [h.1, r1], r2⟩

/-- Two spans have the same key exactly when they have the same `start` and `end`. -/
theorem positionKey_eq_iff (a b : Span) :
    positionKey a = positionKey b ↔ a.start = b.start ∧ a.end_ = b.end_ := by
  constructor
  · intro h
    unfold positionKey at h
    simp only [List.append_assoc, List.singleton_append] at h
    have n1 : (45 : Nat) ∉ decimal a.start := fun m => by
      have := (decimal_spec a.start).1 45 m; omega
    have n2 : (45 : Nat) ∉ decimal b.start := fun m => by
      have := (decimal_spec b.start).1 45 m; omega
    obtain ⟨e1, e2⟩ := append_cons_inj n1 n2 h
    have v1 := congrArg digitsNumber e1
    have v2 := congrArg digitsNumber e2
    rw [(decimal_spec _).2, (decimal_spec _).2] at v1 v2
    exact ⟨v1, v2⟩
  · rintro ⟨h1, h2⟩
    unfold positionKey
    rw [h1, h2]

/-! ## Stability of the ordering and first-seen deduplication -/

theorem filter_insertDesc (key : Span → Nat) (p : Span → Bool) (a : Span) (l : List Span)
    (h : ∀ x ∈ l, p x = true → p a = true → key x = key a) :
    (insertDesc key a l).filter p = (a :: l).filter p := by
  induction l with
  | nil => rfl
  | cons b rest ih =>
    rw [insertDesc]
    split
    · rename_i hlt
      have ih' := ih (fun x hx => h x (List.mem_cons_of_mem _ hx))
      rw [List.filter_cons, ih']
      cases hb : p b with
      | false => simp [List.filter_cons, hb]
      | true =>
        cases ha : p a with
        | false => simp [List.filter_cons, hb, ha]
        | true =>
          have := h b (List.mem_cons_self _ _) hb ha
          omega
    · rfl

/-- The ordering keeps the relative order of the spans that satisfy `p` when these all
have the same sort key. -/
theorem filter_sortDesc (key : Span → Nat) (p : Span → Bool) (l : List Span)
    (h : ∀ x ∈ l, ∀ y ∈ l, p x = true → p y = true → key x = key y) :
    (sortDesc key l).filter p = l.filter p := by
  induction l with
  | nil => rfl
  | cons a rest ih =>
    rw [sortDesc, filter_insertDesc]
    · rw [List.filter_cons, List.filter_cons,
        ih (fun x hx y hy => h x (List.mem_cons_of_mem _ hx) y (List.mem_cons_of_mem _ hy))]
    · intro x hx px pa
      exact h x (List.mem_cons_of_mem _ ((sortDesc_perm key rest).mem_iff.mp hx)) a
        (List.mem_cons_self _ _) px pa

theorem find?_eq_head?_filter (p : Span → Bool) (l : List Span) :
    l.find? p = (l.filter p).head? := by
  induction l with
  | nil => rfl
  | cons a rest ih =>
    cases ha : p a with
    | true =>
      rw [List.find?_cons_of_pos _ ha, List.filter_cons_of_pos ha]
      rfl
    | false =>
      rw [List.find?_cons_of_neg _ (by simp [ha]), List.filter_cons_of_neg (by simp [ha])]
      exact ih

theorem find?_eq_of_filter_eq {p : Span → Bool} {l l' : List Span}
    (h : l.filter p = l'.filter p) : l.find? p = l'.find? p := by
  rw [find?_eq_head?_filter, find?_eq_head?_filter, h]

/-- A span kept by the deduplication is the first one of the list with its key. -/
theorem uniqueFrom_first {seen : List JSString} {l : List Span} {s : Span}
    (h : s ∈ uniqueFrom seen l) :
    l.find? (fun t => positionKey t = positionKey s) = some s ∧ positionKey s ∉ seen := by
  induction l generalizing seen with
  | nil => cases h
  | cons t rest ih =>
    rw [uniqueFrom] at h
    split at h
    · rename_i hin
      obtain ⟨r1, r2⟩ := ih h
      refine ⟨?_, r2⟩
      have : positionKey t ≠ positionKey s := fun e => r2 (e ▸ hin)
      rw [List.find?_cons_of_neg _ (by simpa using this)]
      exact r1
    · rename_i hnin
      rcases List.mem_cons.mp h with r | r
      · subst r
        exact ⟨List.find?_cons_of_pos _ (by simp), hnin⟩
      · obtain ⟨r1, r2⟩ := ih r
        have hne : positionKey t ≠ positionKey s := fun e =>
          r2 (e ▸ List.mem_cons_self _ _)
        refine ⟨?_, fun m => r2 (List.mem_cons_of_mem _ m)⟩
        rw [List.find?_cons_of_neg _ (by simpa using hne)]
        exact r1

/-- Every key of the list that was not seen before is kept once by the deduplication. -/
theorem uniqueFrom_covers {seen : List JSString} {l : List Span} {t : Span}
    (h : t ∈ l) (hs : positionKey t ∉ seen) :
    ∃ s ∈ uniqueFrom seen l, positionKey s = positionKey t := by
  induction l generalizing seen with
  | nil => cases h
  | cons a rest ih =>
    rw [uniqueFrom]
    split
    · rename_i hin
      rcases List.mem_cons.mp h with r | r
      · subst r; exact absurd hin hs
      · exact ih r hs
    · rename_i hnin
      rcases List.mem_cons.mp h with r | r
      · subst r
        exact ⟨t, List.mem_cons_self _ _, rfl⟩
      · by_cases e : positionKey t = positionKey a
        · exact ⟨a, List.mem_cons_self _ _, e.symm⟩
        · have hs' : positionKey t ∉ positionKey a :: seen := by
            intro m
            rcases List.mem_cons.mp m with q | q
            · exact e q
            · exact hs q
          obtain ⟨s, m, q⟩ := ih r hs'
          exact ⟨s, List.mem_cons_of_mem _ m, q⟩

/-! ## The pooled spans by category -/

theorem pooled_american {tbl : Nat → List Nat} {d : Dictionaries} {fuel : Nat}
    {text : JSString} {spans : List Span} (h : pooled tbl d fuel text true = some spans) :
    ∃ a b c e, translateTerms tbl fuel text d.americanOnly = some a ∧
      translateTerms tbl fuel text d.americanToBritishSpelling = some b ∧
      translateTitles tbl fuel text d.americanToBritishTitles = some c ∧
      translateTimeAmericanToBritish tbl fuel text = some e ∧
      spans = a ++ b ++ c ++ e := by
  unfold pooled at h
  simp only [if_true] at h
  cases ha : translateTerms tbl fuel text d.americanOnly with
  | none => rw [ha] at h; simp at h
  | some a =>
    cases hb : translateTerms tbl fuel text d.americanToBritishSpelling with
    | none => rw [ha, hb] at h; simp at h
    | some b =>
      cases hc : translateTitles tbl fuel text d.americanToBritishTitles with
      | none => rw [ha, hb, hc] at h; simp at h
      | some c =>
        cases he : translateTimeAmericanToBritish tbl fuel text with
        | none => rw [ha, hb, hc, he] at h; simp at h
        | some e =>
          rw [ha, hb, hc, he] at h
          exact ⟨a, b, c, e, rfl, rfl, rfl, rfl, (Option.some.inj h).symm⟩

theorem pooled_british {tbl : Nat → List Nat} {d : Dictionaries} {fuel : Nat}
    {text : JSString} {spans : List Span} (h : pooled tbl d fuel text false = some spans) :
    ∃ a b c e, translateTerms tbl fuel text d.britishOnly = some a ∧
      translateTerms tbl fuel text (reverseDict d.americanToBritishSpelling) = some b ∧
      translateTitles tbl fuel text (reverseDict d.americanToBritishTitles) = some c ∧
      translateTimeBritishToAmerican tbl fuel text = some e ∧
      spans = a ++ b ++ c ++ e := by
  unfold pooled at h
  simp only [Bool.false_eq_true, if_false] at h
  cases ha : translateTerms tbl fuel text d.britishOnly with
  | none => rw [ha] at h; simp at h
  | some a =>
    cases hb : translateTerms tbl fuel text (reverseDict d.americanToBritishSpelling) with
    | none => rw [ha, hb] at h; simp at h
    | some b =>
      cases hc : translateTitles tbl fuel text (reverseDict d.americanToBritishTitles) with
      | none => rw [ha, hb, hc] at h; simp at h
      | some c =>
        cases he : translateTimeBritishToAmerican tbl fuel text with
        | none => rw [ha, hb, hc, he] at h; simp at h
        | some e =>
          rw [ha, hb, hc, he] at h
          exact ⟨a, b, c, e, rfl, rfl, rfl, rfl, (Option.some.inj h).symm⟩

theorem translateTerms_original {tbl : Nat → List Nat} {fuel : Nat} {text : JSString}
    {dict : Dict} {l : List Span} (h : translateTerms tbl fuel text dict = some l)
    {s : Span} (hs : s ∈ l) : s.original = slice text s.start s.end_ := by
  obtain ⟨e, -, i, -, rfl⟩ := translateTerms_mem h hs
  rfl

theorem translateTitles_original {tbl : Nat → List Nat} {fuel : Nat} {text : JSString}
    {dict : Dict} {l : List Span} (h : translateTitles tbl fuel text dict = some l)
    {s : Span} (hs : s ∈ l) : s.original = slice text s.start s.end_ := by
  obtain ⟨e, -, i, c, m, -, -, -, hsl, rfl⟩ := translateTitles_mem h hs
  exact hsl.symm

theorem timeLoop_original {tbl : Nat → List Nat} {fuel : Nat} {text : JSString}
    {sep other : Nat} {l : List Span}
    (h : execLoop tbl ⟨timeNodes sep, false⟩ text (timeSpan text other) fuel 0 = some l)
    {s : Span} (hs : s ∈ l) : s.original = slice text s.start s.end_ := by
  obtain ⟨i, hrs, mins, -, -, -, -, -, -, -, hsl, rfl⟩ := timeLoop_mem h hs
  exact hsl.symm

/-- The `original` of every pooled span is the slice of the text between its offsets. -/
theorem pooled_original {tbl : Nat → List Nat} {d : Dictionaries} {fuel : Nat}
    {text : JSString} {americanToBritish : Bool} {spans : List Span}
    (h : pooled tbl d fuel text americanToBritish = some spans) {s : Span} (hs : s ∈ spans) :
    s.original = slice text s.start s.end_ := by
  cases americanToBritish with
  | true =>
    obtain ⟨a, b, c, e, ha, hb, hc, he, rfl⟩ := pooled_american h
    simp only [List.mem_append] at hs
    rcases hs with ((m | m) | m) | m
    · exact translateTerms_original ha m
    · exact translateTerms_original hb m
    · exact translateTitles_original hc m
    · exact @timeLoop_original tbl fuel text 58 46 e he s m
  | false =>
    obtain ⟨a, b, c, e, ha, hb, hc, he, rfl⟩ := pooled_british h
    simp only [List.mem_append] at hs
    rcases hs with ((m | m) | m) | m
    · exact translateTerms_original ha m
    · exact translateTerms_original hb m
    · exact translateTitles_original hc m
    · exact @timeLoop_original tbl fuel text 46 58 e he s m

/-! ## Title mode -/

/-- Claim C7 fails on the code: in "dr. grant" the title is followed by a space and a
lower-case letter, and `translateTitles` emits a span for it (the `i` flag of the pattern
also applies to the class `[A-Z]` of the lookahead); `translate` highlights it. -/
theorem translateTitles_lowercase_follower :
    translateTitles plainTable 10 (str "dr. grant") [(str "dr.", str "doctor")] =
      some [⟨0, 3, str "dr.", str "doctor"⟩] ∧
    translate plainTable sampleDictionaries 10 (some (str "dr. grant"))
      (some (str "american-to-british")) =
      some (.success (str "dr. grant") (str "<span class=\"highlight\">doctor</span> grant")) := by
  decide

/-- Claim C8, as stated, fails when the matched text starts with a character that has no
case: "1st" starts with a digit, which is not an upper-case letter, and the replacement
"first" is emitted as "First". -/
theorem translateTitles_digit_counterexample :
    translateTitles plainTable 11 (str "1st Street") [(str "1st", str "first")] =
      some [⟨0, 3, str "1st", str "First"⟩] ∧
    ¬ (65 ≤ (str "1st").headD 0 ∧ (str "1st").headD 0 ≤ 90) ∧
    str "First" ≠ str "first" := by
  decide

/-- Claim C8 (amended): every span that `translateTitles` emits matches a key up to case; if
the first unit of the matched text equals its own upper-case form (an upper-case letter, or
a character without case), the replacement is the mapped value with its first unit
upper-cased and the rest unchanged, otherwise it is the mapped value as given. For a
dictionary with non-empty keys and enough iterations the method returns. -/
theorem translateTitles_capitalization (tbl : Nat → List Nat) (fuel : Nat) (text : JSString)
    (dict : Dict) :
    (∀ spans, translateTitles tbl fuel text dict = some spans → ∀ s ∈ spans,
      ∃ e ∈ dict, ∃ c m, s.original = c :: m ∧ EqualUpToCase tbl s.original e.1 ∧
        (toUpperCase tbl c = [c] → s.replacement = capitalize tbl e.2) ∧
        (toUpperCase tbl c ≠ [c] → s.replacement = e.2)) ∧
    (NonEmptyKeys dict → text.length < fuel →
      ∃ spans, translateTitles tbl fuel text dict = some spans) := by
  refine ⟨?_, fun hd hf => translateTitles_returns tbl fuel text dict hd hf⟩
  intro spans h s hs
  obtain ⟨e, he, i, c, m, -, h2, -, hsl, rfl⟩ := translateTitles_mem h hs
  refine ⟨e, he, c, m, rfl, ?_, ?_, ?_⟩
  · rw [← hsl]; exact h2
  · intro hu
    have : [c] = toUpperCase tbl c := hu.symm
    simp only [this, if_true]
  · intro hu
    have : ¬ [c] = toUpperCase tbl c := fun e => hu e.symm
    simp only [this, if_false]

/-- Witness for C8 (amended): with "dr." mapped to "doctor", "Dr. Grant will see you."
yields the replacement "Doctor". -/
theorem translateTitles_capitalization_witness :
    translateTitles plainTable 24 (str "Dr. Grant will see you.") [(str "dr.", str "doctor")] =
      some [⟨0, 3, str "Dr.", str "Doctor"⟩] ∧
    ∃ e ∈ [(str "dr.", str "doctor")], ∃ c m,
      (⟨0, 3, str "Dr.", str "Doctor"⟩ : Span).original = c :: m ∧
      EqualUpToCase plainTable (⟨0, 3, str "Dr.", str "Doctor"⟩ : Span).original e.1 ∧
      (toUpperCase plainTable c = [c] →
        (⟨0, 3, str "Dr.", str "Doctor"⟩ : Span).replacement = capitalize plainTable e.2) ∧
      (toUpperCase plainTable c ≠ [c] →
        (⟨0, 3, str "Dr.", str "Doctor"⟩ : Span).replacement = e.2) :=
  ⟨by decide,
   (translateTitles_capitalization plainTable 24 (str "Dr. Grant will see you.")
      [(str "dr.", str "doctor")]).1 [⟨0, 3, str "Dr.", str "Doctor"⟩] (by decide)
      ⟨0, 3, str "Dr.", str "Doctor"⟩ (List.mem_singleton.mpr rfl)⟩

/-! ## Time mode -/

/-- Claim C9: every span of `translateTimeAmericanToBritish` covers one or two digits, a
colon and two digits between word boundaries, and its replacement is the same digits around
a dot; every span of `translateTimeBritishToAmerican` covers such a token with a literal dot
and its replacement has a colon; replacement and original have the same length. With enough
iterations both methods return. -/
theorem translateTime_separator_only (tbl : Nat → List Nat) (fuel : Nat) (text : JSString) :
    (∀ spans, translateTimeAmericanToBritish tbl fuel text = some spans → ∀ s ∈ spans,
      ∃ hrs mins : JSString, (hrs.length = 1 ∨ hrs.length = 2) ∧ mins.length = 2 ∧
        (∀ c ∈ hrs, isDigit c = true) ∧ (∀ c ∈ mins, isDigit c = true) ∧
        s.original = hrs ++ [58] ++ mins ∧ s.replacement = hrs ++ [46] ++ mins ∧
        slice text s.start s.end_ = s.original ∧
        isWordBoundary text s.start = true ∧ isWordBoundary text s.end_ = true ∧
        s.replacement.length = s.original.length) ∧
    (∀ spans, translateTimeBritishToAmerican tbl fuel text = some spans → ∀ s ∈ spans,
      ∃ hrs mins : JSString, (hrs.length = 1 ∨ hrs.length = 2) ∧ mins.length = 2 ∧
        (∀ c ∈ hrs, isDigit c = true) ∧ (∀ c ∈ mins, isDigit c = true) ∧
        s.original = hrs ++ [46] ++ mins ∧ s.replacement = hrs ++ [58] ++ mins ∧
        slice text s.start s.end_ = s.original ∧
        isWordBoundary text s.start = true ∧ isWordBoundary text s.end_ = true ∧
        s.replacement.length = s.original.length) ∧
    (text.length < fuel →
      (∃ spans, translateTimeAmericanToBritish tbl fuel text = some spans) ∧
      (∃ spans, translateTimeBritishToAmerican tbl fuel text = some spans)) := by
  refine ⟨?_, ?_, fun hf => ⟨timeLoop_returns tbl fuel text 58 46 hf,
    timeLoop_returns tbl fuel text 46 58 hf⟩⟩
  · intro spans h s hs
    obtain ⟨i, hrs, mins, a1, a2, a3, a4, a5, a6, -, a8, rfl⟩ :=
      @timeLoop_mem tbl fuel text 58 46 spans h s hs
    exact ⟨hrs, mins, a1, a2, a3, a4, rfl, rfl, a8, a5, a6, by simp⟩
  · intro spans h s hs
    obtain ⟨i, hrs, mins, a1, a2, a3, a4, a5, a6, -, a8, rfl⟩ :=
      @timeLoop_mem tbl fuel text 46 58 spans h s hs
    exact ⟨hrs, mins, a1, a2, a3, a4, rfl, rfl, a8, a5, a6, by simp⟩

/-- Witness for C9: "The meeting is at 12:30." yields the one span 12:30 -> 12.30, of the
stated shape, and "12x30" yields no span in the British mode. -/
theorem translateTime_separator_only_witness :
    translateTimeAmericanToBritish plainTable 25 (str "The meeting is at 12:30.") =
      some [⟨18, 23, str "12:30", str "12.30"⟩] ∧
    translateTimeBritishToAmerican plainTable 6 (str "12x30") = some [] ∧
    ∃ hrs mins : JSString, (hrs.length = 1 ∨ hrs.length = 2) ∧ mins.length = 2 ∧
      (∀ c ∈ hrs, isDigit c = true) ∧ (∀ c ∈ mins, isDigit c = true) ∧
      str "12:30" = hrs ++ [58] ++ mins ∧ str "12.30" = hrs ++ [46] ++ mins ∧
      slice (str "The meeting is at 12:30.") 18 23 = str "12:30" ∧
      isWordBoundary (str "The meeting is at 12:30.") 18 = true ∧
      isWordBoundary (str "The meeting is at 12:30.") 23 = true ∧
      (str "12.30").length = (str "12:30").length :=
  ⟨by decide, by decide,
   (translateTime_separator_only plainTable 25 (str "The meeting is at 12:30.")).1
     [⟨18, 23, str "12:30", str "12.30"⟩] (by decide) ⟨18, 23, str "12:30", str "12.30"⟩
     (List.mem_singleton.mpr rfl)⟩

/-! ## Duplicate resolution -/

theorem samePosition_eq (s : Span) :
    (fun t : Span => decide (positionKey t = positionKey s)) =
      (fun t : Span => decide (t.start = s.start ∧ t.end_ = s.end_)) := by
  funext t
  simp only [positionKey_eq_iff]

/-- Claim C10: for a non-empty text and a recognised direction whose matchers return a
non-empty pool `spans` (the concatenation of the spans of the terms-only dictionary, the
spelling dictionary, the titles dictionary and the time format, in this order), the
translation is obtained by applying the deduplicated spans; each of them is the first
span of the pool with its `(start, end)`, every `(start, end)` of the pool is represented,
and this holds although the pool is sorted by decreasing length before deduplication. -/
theorem translate_first_duplicate_wins (tbl : Nat → List Nat) (d : Dictionaries)
    (fuel : Nat) (text locale : JSString) (spans : List Span) (ht : text ≠ [])
    (hl : locale = str "american-to-british" ∨ locale = str "british-to-american")
    (hp : pooled tbl d fuel text (locale = str "american-to-british") = some spans)
    (hne : spans ≠ []) :
    translate tbl d fuel (some text) (some locale) =
      some (.success text
        ((sortDesc (fun t => t.start)
          (uniqueFrom [] (sortDesc (fun t => t.original.length) spans))).foldl
            applyOne text)) ∧
    (∀ s ∈ uniqueFrom [] (sortDesc (fun t => t.original.length) spans),
      spans.find? (fun t => t.start = s.start ∧ t.end_ = s.end_) = some s) ∧
    (∀ t ∈ spans, ∃ s ∈ uniqueFrom [] (sortDesc (fun t => t.original.length) spans),
      s.start = t.start ∧ s.end_ = t.end_) ∧
    (locale = str "american-to-british" →
      ∃ a b c e, translateTerms tbl fuel text d.americanOnly = some a ∧
        translateTerms tbl fuel text d.americanToBritishSpelling = some b ∧
        translateTitles tbl fuel text d.americanToBritishTitles = some c ∧
        translateTimeAmericanToBritish tbl fuel text = some e ∧
        spans = a ++ b ++ c ++ e) ∧
    (locale = str "british-to-american" →
      ∃ a b c e, translateTerms tbl fuel text d.britishOnly = some a ∧
        translateTerms tbl fuel text (reverseDict d.americanToBritishSpelling) = some b ∧
        translateTitles tbl fuel text (reverseDict d.americanToBritishTitles) = some c ∧
        translateTimeBritishToAmerican tbl fuel text = some e ∧
        spans = a ++ b ++ c ++ e) := by
  have hlen : spans.length ≠ 0 := fun e => hne (List.length_eq_zero.mp e)
  refine ⟨?_, ?_, ?_, ?_, ?_⟩
  · rw [translate_valid tbl d fuel text locale ht hl, hp]
    simp only [hlen, if_false]
    rfl
  · intro s hs
    obtain ⟨h1, -⟩ := uniqueFrom_first hs
    rw [samePosition_eq] at h1
    rw [← h1]
    symm
    apply find?_eq_of_filter_eq
    apply filter_sortDesc
    intro x hx y hy px py
    simp only [decide_eq_true_eq] at px py
    rw [pooled_original hp hx, pooled_original hp hy, px.1, px.2, py.1, py.2]
  · intro t ht'
    have hm : t ∈ sortDesc (fun t => t.original.length) spans :=
      (sortDesc_perm _ spans).mem_iff.mpr ht'
    obtain ⟨s, hs, e⟩ := uniqueFrom_covers hm (List.not_mem_nil _)
    exact ⟨s, hs, (positionKey_eq_iff s t).mp e⟩
  · intro e
    subst e
    exact pooled_american (by simpa using hp)
  · intro e
    subst e
    exact pooled_british (by simpa using hp)

/-- Witness for C10: "chips" is matched by the terms-only key "chips" and by the spelling key
"CHIPS" at the same offsets; the terms-only replacement "crisps" is the one applied. -/
theorem translate_first_duplicate_wins_witness :
    pooled plainTable overlappingDictionaries 13 (str "I like chips")
      (str "american-to-british" = str "american-to-british") =
      some [⟨7, 12, str "chips", str "crisps"⟩, ⟨7, 12, str "chips", str "fries"⟩] ∧
    translate plainTable overlappingDictionaries 13 (some (str "I like chips"))
      (some (str "american-to-british")) =
      some (.success (str "I like chips")
        (str "I like <span class=\"highlight\">crisps</span>")) :=
  ⟨by decide,
   (translate_first_duplicate_wins plainTable overlappingDictionaries 13
      (str "I like chips") (str "american-to-british")
      [⟨7, 12, str "chips", str "crisps"⟩, ⟨7, 12, str "chips", str "fries"⟩]
      (by decide) (Or.inl rfl) (by decide) (by decide)).1.trans (by decide)⟩

/-! ## The span invariant -/

theorem translateTerms_spanInText {tbl : Nat → List Nat} {fuel : Nat} {text : JSString}
    {dict : Dict} (hd : NonEmptyKeys dict) {l : List Span}
    (h : translateTerms tbl fuel text dict = some l) {s : Span} (hs : s ∈ l) :
    SpanInText text s := by
  obtain ⟨e, he, i, ho, rfl⟩ := translateTerms_mem h hs
  have hpos : 0 < e.1.length := List.length_pos.mpr (hd e he)
  have hb := slice_bound (equalUpToCase_length ho.1) hpos
  exact ⟨by simpa using hpos, hb, rfl⟩

theorem translateTitles_spanInText {tbl : Nat → List Nat} {fuel : Nat} {text : JSString}
    {dict : Dict} (hd : NonEmptyKeys dict) {l : List Span}
    (h : translateTitles tbl fuel text dict = some l) {s : Span} (hs : s ∈ l) :
    SpanInText text s := by
  obtain ⟨e, he, i, c, m, -, h2, -, hsl, rfl⟩ := translateTitles_mem h hs
  have hpos : 0 < e.1.length := List.length_pos.mpr (hd e he)
  have hb := slice_bound (equalUpToCase_length h2) hpos
  exact ⟨by simpa using hpos, hb, hsl.symm⟩

theorem timeLoop_spanInText {tbl : Nat → List Nat} {fuel : Nat} {text : JSString}
    {sep other : Nat} {l : List Span}
    (h : execLoop tbl ⟨timeNodes sep, false⟩ text (timeSpan text other) fuel 0 = some l)
    {s : Span} (hs : s ∈ l) : SpanInText text s := by
  obtain ⟨i, hrs, mins, -, -, -, -, -, -, hb, hsl, rfl⟩ := timeLoop_mem h hs
  exact ⟨by show i < i + hrs.length + 3; omega, hb, hsl.symm⟩

/-- Claim C17: for a dictionary with non-empty keys, every span emitted by `translateTerms`,
`translateTitles`, `translateTimeAmericanToBritish` or `translateTimeBritishToAmerican`
satisfies `0 <= start < end <= length(text)` and its `original` is the substring
`text[start:end]`; with enough iterations the four matchers return. -/
theorem matchers_span_invariant (tbl : Nat → List Nat) (fuel : Nat) (text : JSString)
    (dict : Dict) (hd : NonEmptyKeys dict) :
    (∀ spans, translateTerms tbl fuel text dict = some spans →
      ∀ s ∈ spans, SpanInText text s) ∧
    (∀ spans, translateTitles tbl fuel text dict = some spans →
      ∀ s ∈ spans, SpanInText text s) ∧
    (∀ spans, translateTimeAmericanToBritish tbl fuel text = some spans →
      ∀ s ∈ spans, SpanInText text s) ∧
    (∀ spans, translateTimeBritishToAmerican tbl fuel text = some spans →
      ∀ s ∈ spans, SpanInText text s) ∧
    (text.length < fuel →
      (∃ spans, translateTerms tbl fuel text dict = some spans) ∧
      (∃ spans, translateTitles tbl fuel text dict = some spans) ∧
      (∃ spans, translateTimeAmericanToBritish tbl fuel text = some spans) ∧
      (∃ spans, translateTimeBritishToAmerican tbl fuel text = some spans)) :=
  ⟨fun _ h _ hs => translateTerms_spanInText hd h hs,
   fun _ h _ hs => translateTitles_spanInText hd h hs,
   fun spans h s hs => @timeLoop_spanInText tbl fuel text 58 46 spans h s hs,
   fun spans h s hs => @timeLoop_spanInText tbl fuel text 46 58 spans h s hs,
   fun hf => ⟨translateTerms_returns tbl fuel text dict hd hf,
     translateTitles_returns tbl fuel text dict hd hf,
     timeLoop_returns tbl fuel text 58 46 hf, timeLoop_returns tbl fuel text 46 58 hf⟩⟩

/-- Witness for C17: the span of "FAVOR" in "A FAVOR, please" and the span of "12:30" in
"The meeting is at 12:30." satisfy the invariant. -/
theorem matchers_span_invariant_witness :
    NonEmptyKeys [(str "favor", str "favour")] ∧
    translateTerms plainTable 16 (str "A FAVOR, please") [(str "favor", str "favour")] =
      some [⟨2, 7, str "FAVOR", str "favour"⟩] ∧
    SpanInText (str "A FAVOR, please") ⟨2, 7, str "FAVOR", str "favour"⟩ ∧
    ∃ spans, translateTimeAmericanToBritish plainTable 16 (str "A FAVOR, please") =
      some spans :=
  have h := matchers_span_invariant plainTable 16 (str "A FAVOR, please")
    [(str "favor", str "favour")] (by decide)
  ⟨by decide, by decide,
   h.1 [⟨2, 7, str "FAVOR", str "favour"⟩] (by decide) ⟨2, 7, str "FAVOR", str "favour"⟩
     (List.mem_singleton.mpr rfl),
   (h.2.2.2.2 (by decide)).2.2.1⟩

/-! ## Literal keys -/

/-- Claim C20: `escapeRegex` puts a backslash before each of the characters
`. * + ? ^ $ { } ( ) | [ ] \` and leaves every other character unchanged, the pattern
source it produces reads as the characters of the key, and the `original` of every span
emitted by `translateTerms` or `translateTitles` equals a key of the dictionary, unit for
unit, up to letter case; for a dictionary with non-empty keys and enough iterations both
methods return. -/
theorem escapeRegex_literal (tbl : Nat → List Nat) (fuel : Nat) (text : JSString)
    (dict : Dict) :
    (∀ key, escapeRegex key =
      key.flatMap (fun c => if c ∈ str ".*+?^$\x7b\x7d()|[]\\" then [92, c] else [c])) ∧
    (∀ key, parseLiterals (escapeRegex key) =
      some (key.map (fun c => Node.atom (Atom.char c)))) ∧
    (∀ spans, translateTerms tbl fuel text dict = some spans → ∀ s ∈ spans,
      ∃ e ∈ dict, EqualUpToCase tbl s.original e.1 ∧ s.original.length = e.1.length) ∧
    (∀ spans, translateTitles tbl fuel text dict = some spans → ∀ s ∈ spans,
      ∃ e ∈ dict, EqualUpToCase tbl s.original e.1 ∧ s.original.length = e.1.length) ∧
    (NonEmptyKeys dict → text.length < fuel →
      (∃ spans, translateTerms tbl fuel text dict = some spans) ∧
      (∃ spans, translateTitles tbl fuel text dict = some spans)) := by
  refine ⟨?_, parseLiterals_escapeRegex, ?_, ?_, fun hd hf =>
    ⟨translateTerms_returns tbl fuel text dict hd hf,
     translateTitles_returns tbl fuel text dict hd hf⟩⟩
  · intro key
    have : syntaxUnits = str ".*+?^$\x7b\x7d()|[]\\" := by decide
    rw [← this]
    rfl
  · intro spans h s hs
    obtain ⟨e, he, i, ho, rfl⟩ := translateTerms_mem h hs
    exact ⟨e, he, ho.1, equalUpToCase_length ho.1⟩
  · intro spans h s hs
    obtain ⟨e, he, i, c, m, -, h2, -, hsl, rfl⟩ := translateTitles_mem h hs
    refine ⟨e, he, ?_, ?_⟩
    · show EqualUpToCase tbl (c :: m) e.1
      rw [← hsl]; exact h2
    · show (c :: m).length = e.1.length
      rw [← hsl]; exact equalUpToCase_length h2

/-- Witness for C20: the key "mr." matches "Mr." and matches neither "mrs" nor "mrx". -/
theorem escapeRegex_literal_witness :
    escapeRegex (str "mr.") = str "mr\\." ∧
    translateTitles plainTable 10 (str "Mr. Smith") [(str "mr.", str "mr")] =
      some [⟨0, 3, str "Mr.", str "Mr"⟩] ∧
    translateTitles plainTable 10 (str "mrs Smith") [(str "mr.", str "mr")] = some [] ∧
    translateTitles plainTable 10 (str "mrx Smith") [(str "mr.", str "mr")] = some [] ∧
    translateTerms plainTable 10 (str "a mrx b") [(str "mr.", str "mr")] = some [] ∧
    ∃ e ∈ [(str "mr.", str "mr")],
      EqualUpToCase plainTable (⟨0, 3, str "Mr.", str "Mr"⟩ : Span).original e.1 ∧
      (⟨0, 3, str "Mr.", str "Mr"⟩ : Span).original.length = e.1.length :=
  ⟨by decide, by decide, by decide, by decide, by decide,
   (escapeRegex_literal plainTable 10 (str "Mr. Smith") [(str "mr.", str "mr")]).2.2.2.1
     [⟨0, 3, str "Mr.", str "Mr"⟩] (by decide) ⟨0, 3, str "Mr.", str "Mr"⟩
     (List.mem_singleton.mpr rfl)⟩

/-! ## Termination -/

/-- A scanning loop whose match does not advance `lastIndex` never returns. -/
theorem execLoop_stuck {tbl : Nat → List Nat} {re : RegExp} {text : JSString}
    {mk : Nat → MatchState → Option Span} {lastIndex j : Nat} {st : MatchState}
    (he : exec tbl re text lastIndex = some (j, st)) (hst : st.endIndex = lastIndex)
    (fuel : Nat) : execLoop tbl re text mk fuel lastIndex = none := by
  induction fuel with
  | zero => rfl
  | succ n ih =>
    rw [execLoop, he]
    simp only
    rw [hst, ih]
    cases mk j st <;> rfl

/-- The number of spans pushed by a scanning loop that makes progress is at most the
number of code units after `lastIndex`. -/
theorem execLoop_length_le {tbl : Nat → List Nat} {re : RegExp} {text : JSString}
    {mk : Nat → MatchState → Option Span} (hp : Progress tbl re text)
    {fuel lastIndex : Nat} {l : List Span}
    (h : execLoop tbl re text mk fuel lastIndex = some l) :
    l.length ≤ text.length - lastIndex := by
  induction fuel generalizing lastIndex l with
  | zero => simp [execLoop] at h
  | succ n ih =>
    rw [execLoop] at h
    cases he : exec tbl re text lastIndex with
    | none =>
      rw [he] at h
      simp only [Option.some.injEq] at h
      subst h
      exact Nat.zero_le _
    | some r =>
      obtain ⟨j, st⟩ := r
      rw [he] at h
      simp only at h
      obtain ⟨h1, h2, h3, -⟩ := exec_some he
      obtain ⟨p1, p2⟩ := hp j st h3
      cases hm : mk j st with
      | none => rw [hm] at h; simp at h
      | some s0 =>
        cases hr : execLoop tbl re text mk n st.endIndex with
        | none => rw [hm, hr] at h; simp at h
        | some rest =>
          rw [hm, hr] at h
          simp only [Option.some.injEq] at h
          subst h
          have := ih hr
          simp only [List.length_cons]
          omega

theorem translateTerms_length_le {tbl : Nat → List Nat} {fuel : Nat} {text : JSString}
    {dict : Dict} (hd : NonEmptyKeys dict) {l : List Span}
    (h : translateTerms tbl fuel text dict = some l) :
    l.length ≤ dict.length * text.length := by
  induction dict generalizing l with
  | nil =>
    simp only [translateTerms, Option.some.injEq] at h
    subst h; simp
  | cons e rest ih =>
    obtain ⟨american, british⟩ := e
    rw [translateTerms, termRegExp_eq] at h
    simp only at h
    cases hh : execLoop tbl ⟨[Node.wordBoundary] ++ american.map (fun c => Node.atom (.char c)) ++
      [Node.wordBoundary], true⟩ text (termSpan text british) fuel 0 with
    | none => rw [hh] at h; simp at h
    | some here =>
      cases hl : translateTerms tbl fuel text rest with
      | none => rw [hh, hl] at h; simp at h
      | some later =>
        rw [hh, hl] at h
        simp only [Option.some.injEq] at h
        subst h
        have h1 := execLoop_length_le
          (progress_term tbl text american (hd _ (List.mem_cons_self _ _))) hh
        have h2 := ih (fun x hx => hd x (List.mem_cons_of_mem _ hx)) hl
        simp only [List.length_append, List.length_cons, Nat.succ_mul]
        omega

theorem translateTitles_length_le {tbl : Nat → List Nat} {fuel : Nat} {text : JSString}
    {dict : Dict} (hd : NonEmptyKeys dict) {l : List Span}
    (h : translateTitles tbl fuel text dict = some l) :
    l.length ≤ dict.length * text.length := by
  induction dict generalizing l with
  | nil =>
    simp only [translateTitles, Option.some.injEq] at h
    subst h; simp
  | cons e rest ih =>
    obtain ⟨american, british⟩ := e
    rw [translateTitles, titleRegExp_eq] at h
    simp only at h
    cases hh : execLoop tbl ⟨[Node.wordBoundary] ++ american.map (fun c => Node.atom (.char c)) ++
      [Node.lookahead [.whiteSpace, .range 65 90]], true⟩ text (titleSpan tbl text british)
      fuel 0 with
    | none => rw [hh] at h; simp at h
    | some here =>
      cases hl : translateTitles tbl fuel text rest with
      | none => rw [hh, hl] at h; simp at h
      | some later =>
        rw [hh, hl] at h
        simp only [Option.some.injEq] at h
        subst h
        have h1 := execLoop_length_le
          (progress_title tbl text american (hd _ (List.mem_cons_self _ _))) hh
        have h2 := ih (fun x hx => hd x (List.mem_cons_of_mem _ hx)) hl
        simp only [List.length_append, List.length_cons, Nat.succ_mul]
        omega

/-- Claim C15, as stated, fails for a dictionary with an empty key: the keys and values of
`emptyKeyDictionaries` are unique, and for the text "a" the loop of `translateTerms` finds the
empty match at offset 0 again and again, so `translate` returns nothing, whatever the number
of iterations allowed. -/
theorem translate_empty_key_counterexample :
    (UniqueKeys emptyKeyDictionaries.americanOnly ∧
     UniqueKeys emptyKeyDictionaries.americanToBritishSpelling ∧
     UniqueValues emptyKeyDictionaries.americanToBritishSpelling ∧
     UniqueKeys emptyKeyDictionaries.americanToBritishTitles ∧
     UniqueValues emptyKeyDictionaries.americanToBritishTitles ∧
     UniqueKeys emptyKeyDictionaries.britishOnly) ∧
    (∀ fuel, translateTerms plainTable fuel (str "a") emptyKeyDictionaries.americanOnly =
      none) ∧
    ∀ fuel, translate plainTable emptyKeyDictionaries fuel (some (str "a"))
      (some (str "american-to-british")) = none := by
  have hterms : ∀ fuel,
      translateTerms plainTable fuel (str "a") emptyKeyDictionaries.americanOnly = none := by
    intro fuel
    show translateTerms plainTable fuel (str "a") [(str "", str "x")] = none
    rw [translateTerms, termRegExp_eq]
    simp only
    rw [@execLoop_stuck plainTable _ (str "a") _ 0 0 ⟨0, [], []⟩ (by decide) rfl fuel]
  refine ⟨by decide, hterms, ?_⟩
  intro fuel
  rw [translate_valid plainTable emptyKeyDictionaries fuel (str "a")
    (str "american-to-british") (by decide) (Or.inl rfl)]
  have : pooled plainTable emptyKeyDictionaries fuel (str "a")
      (str "american-to-british" = str "american-to-british") = none := by
    unfold pooled
    simp only [decide_True, if_true, hterms fuel]
  rw [this]

/-- Claim C15 (amended): when no dictionary has an empty search term (keys, and values of the
two inverted mappings) and more iterations are allowed than the text has code units, each
scanning loop returns after finitely many matches (at most one per code unit of the text and
key), and `translate` returns a result for every non-empty text and recognised direction. -/
theorem translate_total (tbl : Nat → List Nat) (d : Dictionaries) (fuel : Nat)
    (text locale : JSString) (hd : WellFormed d) (ht : text ≠ [])
    (hf : text.length < fuel)
    (hl : locale = str "american-to-british" ∨ locale = str "british-to-american") :
    (∀ dict, NonEmptyKeys dict →
      (∃ spans, translateTerms tbl fuel text dict = some spans ∧
        spans.length ≤ dict.length * text.length) ∧
      (∃ spans, translateTitles tbl fuel text dict = some spans ∧
        spans.length ≤ dict.length * text.length)) ∧
    (∃ spans, translateTimeAmericanToBritish tbl fuel text = some spans ∧
      spans.length ≤ text.length) ∧
    (∃ spans, translateTimeBritishToAmerican tbl fuel text = some spans ∧
      spans.length ≤ text.length) ∧
    ∃ r, translate tbl d fuel (some text) (some locale) = some r := by
  refine ⟨?_, ?_, ?_, ?_⟩
  · intro dict hk
    obtain ⟨a, ha⟩ := translateTerms_returns tbl fuel text dict hk hf
    obtain ⟨b, hb⟩ := translateTitles_returns tbl fuel text dict hk hf
    exact ⟨⟨a, ha, translateTerms_length_le hk ha⟩, ⟨b, hb, translateTitles_length_le hk hb⟩⟩
  · obtain ⟨e, he⟩ := timeLoop_returns tbl fuel text 58 46 hf
    exact ⟨e, he, by simpa using execLoop_length_le (progress_time tbl text 58) he⟩
  · obtain ⟨e, he⟩ := timeLoop_returns tbl fuel text 46 58 hf
    exact ⟨e, he, by simpa using execLoop_length_le (progress_time tbl text 46) he⟩
  · obtain ⟨spans, hp⟩ := pooled_returns tbl d fuel text (locale = str "american-to-british")
      hd hf
    rw [translate_valid tbl d fuel text locale ht hl, hp]
    by_cases h : spans.length = 0
    · exact ⟨_, by simp only [h, if_true]; rfl⟩
    · exact ⟨_, by simp only [h, if_false]; rfl⟩

/-- Witness for C15 (amended) at "Mangoes are my favorite fruit." in the american-to-british
direction. -/
theorem translate_total_witness :
    WellFormed sampleDictionaries ∧
    ∃ r, translate plainTable sampleDictionaries 31
      (some (str "Mangoes are my favorite fruit.")) (some (str "american-to-british")) =
      some r :=
  ⟨by decide,
   (translate_total plainTable sampleDictionaries 31 (str "Mangoes are my favorite fruit.")
     (str "american-to-british") (by decide) (by decide) (by decide) (Or.inl rfl)).2.2.2⟩

/-! ## Time round trip -/

theorem isWordChar_of_isDigit {c : Nat} (h : isDigit c = true) : isWordChar c = true := by
  simp only [isDigit, Bool.and_eq_true, decide_eq_true_eq] at h
  simp [isWordChar, h.1, h.2]

theorem accepts_digit_of_isDigit (tbl : Nat → List Nat) {c : Nat} (h : isDigit c = true) :
    Atom.accepts tbl false .digit c = true := by
  simp only [isDigit, Bool.and_eq_true, decide_eq_true_eq] at h
  exact (accepts_digit_iff tbl c).mpr h

theorem accepts_char_iff (tbl : Nat → List Nat) (sep c : Nat) :
    Atom.accepts tbl false (.char sep) c = true ↔ c = sep := by
  simp [Atom.accepts, Atom.units]

/-- A text that is one time token yields exactly one span. -/
theorem timeLoop_token (tbl : Nat → List Nat) (fuel sep other : Nat) (hrs mins : JSString)
    (h1 : hrs.length = 1 ∨ hrs.length = 2) (h2 : mins.length = 2)
    (hd1 : ∀ c ∈ hrs, isDigit c = true) (hd2 : ∀ c ∈ mins, isDigit c = true)
    (hsep : isDigit sep = false) (hf : 2 ≤ fuel) :
    execLoop tbl ⟨timeNodes sep, false⟩ (hrs ++ [sep] ++ mins)
        (timeSpan (hrs ++ [sep] ++ mins) other) fuel 0 =
      some [⟨0, hrs.length + 3, hrs ++ [sep] ++ mins, hrs ++ [other] ++ mins⟩] := by
  obtain ⟨f, rfl⟩ : ∃ f, fuel = f + 2 := ⟨fuel - 2, by omega⟩
  have hns : Atom.accepts tbl false .digit sep = false := by
    cases hc : Atom.accepts tbl false .digit sep with
    | false => rfl
    | true =>
      have := (accepts_digit_iff tbl sep).mp hc
      simp [isDigit] at hsep
      omega
  match mins, h2 with
  | [m, n], _ =>
    have hm := hd2 m (by simp)
    have hn := hd2 n (by simp)
    have am := accepts_digit_of_isDigit tbl hm
    have an := accepts_digit_of_isDigit tbl hn
    have wn := isWordChar_of_isDigit hn
    rcases h1 with h1 | h1
    · match hrs, h1 with
      | [a], _ =>
        have ha := hd1 a (by simp)
        have aa := accepts_digit_of_isDigit tbl ha
        have wa := isWordChar_of_isDigit ha
        simp [execLoop, exec, scanFrom, matchNodes, timeNodes, runAccepts, isWordBoundary,
          accepts_char_iff, timeSpan, capture, slice, aa, am, an, wa, wn, hns, List.range_succ]
    · match hrs, h1 with
      | [a, b], _ =>
        have ha := hd1 a (by simp)
        have hb := hd1 b (by simp)
        have aa := accepts_digit_of_isDigit tbl ha
        have ab := accepts_digit_of_isDigit tbl hb
        have wa := isWordChar_of_isDigit ha
        simp [execLoop, exec, scanFrom, matchNodes, timeNodes, runAccepts, isWordBoundary,
          accepts_char_iff, timeSpan, capture, slice, aa, ab, am, an, wa, wn, hns,
          List.range_succ]

/-- Claim C12: for a text that is exactly one time token, `H:MM` or `HH:MM`,
`translateTimeAmericanToBritish` yields exactly one span, whose replacement is the token
with a dot, and `translateTimeBritishToAmerican` applied to that replacement yields exactly
one span, whose replacement is the original token; the same two equations give the round
trip that starts from the British token. -/
theorem time_round_trip (tbl : Nat → List Nat) (fuel : Nat) (hrs mins : JSString)
    (h1 : hrs.length = 1 ∨ hrs.length = 2) (h2 : mins.length = 2)
    (hd1 : ∀ c ∈ hrs, isDigit c = true) (hd2 : ∀ c ∈ mins, isDigit c = true)
    (hf : 2 ≤ fuel) :
    translateTimeAmericanToBritish tbl fuel (hrs ++ [58] ++ mins) =
      some [⟨0, hrs.length + 3, hrs ++ [58] ++ mins, hrs ++ [46] ++ mins⟩] ∧
    translateTimeBritishToAmerican tbl fuel (hrs ++ [46] ++ mins) =
      some [⟨0, hrs.length + 3, hrs ++ [46] ++ mins, hrs ++ [58] ++ mins⟩] :=
  ⟨timeLoop_token tbl fuel 58 46 hrs mins h1 h2 hd1 hd2 (by decide) hf,
   timeLoop_token tbl fuel 46 58 hrs mins h1 h2 hd1 hd2 (by decide) hf⟩

/-- Witness for C12: "9:05" becomes "9.05" and "9.05" becomes "9:05" again. -/
theorem time_round_trip_witness :
    translateTimeAmericanToBritish plainTable 2 (str "9:05") =
      some [⟨0, 4, str "9:05", str "9.05"⟩] ∧
    translateTimeBritishToAmerican plainTable 2 (str "9.05") =
      some [⟨0, 4, str "9.05", str "9:05"⟩] :=
  time_round_trip plainTable 2 (str "9") (str "05") (by decide) (by decide) (by decide)
    (by decide) (by decide)

/-! ## Substitution of non-overlapping spans -/

theorem insertDesc_sorted (key : Span → Nat) (a : Span) (l : List Span)
    (h : l.Pairwise (fun x y => key y ≤ key x)) :
    (insertDesc key a l).Pairwise (fun x y => key y ≤ key x) := by
  induction l with
  | nil => simp [insertDesc]
  | cons b rest ih =>
    rw [insertDesc]
    obtain ⟨hb, hrest⟩ := List.pairwise_cons.mp h
    split
    · rename_i hlt
      refine List.pairwise_cons.mpr ⟨?_, ih hrest⟩
      intro y hy
      rcases List.mem_cons.mp ((insertDesc_perm key a rest).mem_iff.mp hy) with r | r
      · subst r; omega
      · exact hb y r
    · rename_i hge
      refine List.pairwise_cons.mpr ⟨?_, h⟩
      intro y hy
      rcases List.mem_cons.mp hy with r | r
      · subst r; omega
      · have := hb y r; omega

/-- The ordering puts the spans in decreasing order of `key`. -/
theorem sortDesc_sorted (key : Span → Nat) (l : List Span) :
    (sortDesc key l).Pairwise (fun x y => key y ≤ key x) := by
  induction l with
  | nil => exact List.Pairwise.nil
  | cons a rest ih => exact insertDesc_sorted key a _ ih

/-- The deduplication keeps a list whose keys are new and pairwise different. -/
theorem uniqueFrom_eq_self {seen : List JSString} {l : List Span}
    (h1 : ∀ t ∈ l, positionKey t ∉ seen)
    (h2 : l.Pairwise (fun a b => positionKey a ≠ positionKey b)) :
    uniqueFrom seen l = l := by
  induction l generalizing seen with
  | nil => rfl
  | cons t rest ih =>
    obtain ⟨ht, hrest⟩ := List.pairwise_cons.mp h2
    rw [uniqueFrom, if_neg (h1 t (List.mem_cons_self _ _))]
    congr 1
    apply ih _ hrest
    intro x hx m
    rcases List.mem_cons.mp m with r | r
    · exact ht x hx r.symm
    · exact h1 x (List.mem_cons_of_mem _ hx) r

theorem take_append_slice (text : JSString) (p q : Nat) (h : p ≤ q) :
    text.take p ++ slice text p q = text.take q := by
  unfold slice
  have : q = p + (q - p) := by omega
  conv_rhs => rw [this, List.take_add]

/-- Applying spans from right to left: the part of the text before the leftmost span is
untouched and the rest is the rendering of the spans. -/
theorem foldr_applyOne (text : JSString) (asc : List Span) (p : Nat)
    (hs : asc.Pairwise (fun a b => a.end_ ≤ b.start))
    (hb : ∀ s ∈ asc, p ≤ s.start ∧ s.start < s.end_ ∧ s.end_ ≤ text.length) :
    asc.foldr (fun s r => applyOne r s) text = text.take p ++ renderFrom text p asc := by
  induction asc generalizing p with
  | nil => simp [renderFrom]
  | cons a rest ih =>
    obtain ⟨ha, hrest⟩ := List.pairwise_cons.mp hs
    obtain ⟨a1, a2, a3⟩ := hb a (List.mem_cons_self _ _)
    have ih' := ih a.end_ hrest (fun s m =>
      ⟨ha s m, (hb s (List.mem_cons_of_mem _ m)).2.1, (hb s (List.mem_cons_of_mem _ m)).2.2⟩)
    rw [List.foldr_cons, ih', renderFrom, applyOne]
    have hlen : (text.take a.end_).length = a.end_ := by
      rw [List.length_take]; omega
    have e1 : (text.take a.end_ ++ renderFrom text a.end_ rest).take a.start =
        text.take a.start := by
      rw [List.take_append_of_le_length (by omega), List.take_take]
      congr 1
      omega
    have e2 : (text.take a.end_ ++ renderFrom text a.end_ rest).drop a.end_ =
        renderFrom text a.end_ rest := by
      rw [List.drop_append_of_le_length (by omega), List.drop_of_length_le (by omega)]
      rfl
    rw [e1, e2, ← take_append_slice text p a.start a1]
    simp only [List.append_assoc]

theorem distinct_of_non_overlapping {text : JSString} {l : List Span}
    (hl : ∀ s ∈ l, s.start < s.end_ ∧ s.end_ ≤ text.length)
    (hno : l.Pairwise (fun a b => a.end_ ≤ b.start ∨ b.end_ ≤ a.start)) :
    l.Pairwise (fun a b => positionKey a ≠ positionKey b) := by
  refine List.Pairwise.imp_of_mem ?_ hno
  intro a b ha hb h e
  obtain ⟨e1, e2⟩ := (positionKey_eq_iff a b).mp e
  have := (hl a ha).1
  have := (hl b hb).1
  omega

/-- Claim C16: for spans that lie in the text (`start < end <= length(text)`) and are
pairwise non-overlapping, given in any order, `applyTranslations` returns the text in which
the range of each span is replaced by its highlighted replacement and every code unit
outside the spans is kept in place: the result is the left-to-right rendering of the
spans in ascending order. -/
theorem applyTranslations_non_overlapping (text : JSString) (l : List Span)
    (hl : ∀ s ∈ l, s.start < s.end_ ∧ s.end_ ≤ text.length)
    (hno : l.Pairwise (fun a b => a.end_ ≤ b.start ∨ b.end_ ≤ a.start)) :
    ∃ asc, asc.Perm l ∧ asc.Pairwise (fun a b => a.end_ ≤ b.start) ∧
      applyTranslations text l = renderFrom text 0 asc := by
  have hperm := sortDesc_perm (fun t => t.start) l
  have hno' : (sortDesc (fun t => t.start) l).Pairwise
      (fun a b => a.end_ ≤ b.start ∨ b.end_ ≤ a.start) :=
    (hperm.pairwise_iff (fun {a b} h => h.symm)).mpr hno
  have hdesc : (sortDesc (fun t => t.start) l).Pairwise (fun a b => b.end_ ≤ a.start) := by
    refine List.Pairwise.imp_of_mem ?_ ((sortDesc_sorted (fun t => t.start) l).and hno')
    intro a b ha hb h
    have := (hl a (hperm.mem_iff.mp ha)).1
    have := (hl b (hperm.mem_iff.mp hb)).1
    rcases h.2 with r | r
    · have := h.1; omega
    · exact r
  refine ⟨(sortDesc (fun t => t.start) l).reverse, (List.reverse_perm _).trans hperm,
    List.pairwise_reverse.mpr hdesc, ?_⟩
  have hfold := foldr_applyOne text (sortDesc (fun t => t.start) l).reverse 0
    (List.pairwise_reverse.mpr hdesc)
    (fun s m => ⟨Nat.zero_le _, hl s (hperm.mem_iff.mp (List.mem_reverse.mp m))⟩)
  rw [List.foldr_reverse] at hfold
  simp only [List.take_zero, List.nil_append] at hfold
  rw [← hfold]
  unfold applyTranslations
  rw [uniqueFrom_eq_self (fun _ _ => List.not_mem_nil _) (distinct_of_non_overlapping hl hno)]

/-- Witness for C16: two spans of "one two three", given right span first and left span
first. -/
theorem applyTranslations_non_overlapping_witness :
    applyTranslations (str "one two three")
      [⟨8, 13, str "three", str "3"⟩, ⟨0, 3, str "one", str "1"⟩] =
      str "<span class=\"highlight\">1</span> two <span class=\"highlight\">3</span>" ∧
    applyTranslations (str "one two three")
      [⟨0, 3, str "one", str "1"⟩, ⟨8, 13, str "three", str "3"⟩] =
      str "<span class=\"highlight\">1</span> two <span class=\"highlight\">3</span>" ∧
    ∃ asc, asc.Perm [⟨8, 13, str "three", str "3"⟩, ⟨0, 3, str "one", str "1"⟩] ∧
      asc.Pairwise (fun a b => a.end_ ≤ b.start) ∧
      applyTranslations (str "one two three")
        [⟨8, 13, str "three", str "3"⟩, ⟨0, 3, str "one", str "1"⟩] =
        renderFrom (str "one two three") 0 asc :=
  ⟨by decide, by decide,
   applyTranslations_non_overlapping (str "one two three")
     [⟨8, 13, str "three", str "3"⟩, ⟨0, 3, str "one", str "1"⟩] (by decide) (by decide)⟩

/-! ## Independence of the pool order -/

theorem uniqueFrom_sublist (seen : List JSString) (l : List Span) :
    (uniqueFrom seen l).Sublist l := by
  induction l generalizing seen with
  | nil => exact List.Sublist.refl _
  | cons t rest ih =>
    rw [uniqueFrom]
    split
    · exact (ih seen).cons t
    · exact (ih _).cons₂ t

theorem uniqueFrom_distinct (seen : List JSString) (l : List Span) :
    (uniqueFrom seen l).Pairwise (fun a b => positionKey a ≠ positionKey b) := by
  induction l generalizing seen with
  | nil => exact List.Pairwise.nil
  | cons t rest ih =>
    rw [uniqueFrom]
    split
    · exact ih seen
    · refine List.pairwise_cons.mpr ⟨?_, ih _⟩
      intro s hs e
      exact (uniqueFrom_first hs).2 (e ▸ List.mem_cons_self _ _)

/-- A span that is the first of the list with its key is kept by the deduplication. -/
theorem mem_uniqueFrom_of_find? {l : List Span} {s : Span}
    (h : l.find? (fun t => positionKey t = positionKey s) = some s) :
    s ∈ uniqueFrom [] l := by
  have hm : s ∈ l := List.mem_of_find?_eq_some h
  obtain ⟨s', hs', e⟩ := uniqueFrom_covers hm (List.not_mem_nil _)
  have h' := (uniqueFrom_first hs').1
  rw [e, h] at h'
  rw [Option.some.inj h']
  exact hs'

theorem insertDesc_lex (key : Span → Nat) (P : Span → Span → Prop) (a : Span)
    (l : List Span)
    (hl : l.Pairwise (fun x y => key y < key x ∨ (key x = key y ∧ P x y)))
    (ha : ∀ y ∈ l, P a y) :
    (insertDesc key a l).Pairwise (fun x y => key y < key x ∨ (key x = key y ∧ P x y)) := by
  induction l with
  | nil => simp [insertDesc]
  | cons b rest ih =>
    rw [insertDesc]
    obtain ⟨hb, hrest⟩ := List.pairwise_cons.mp hl
    split
    · rename_i hlt
      refine List.pairwise_cons.mpr ⟨?_, ih hrest (fun y hy => ha y (List.mem_cons_of_mem _ hy))⟩
      intro y hy
      rcases List.mem_cons.mp ((insertDesc_perm key a rest).mem_iff.mp hy) with r | r
      · subst r; exact Or.inl hlt
      · exact hb y r
    · rename_i hge
      refine List.pairwise_cons.mpr ⟨?_, hl⟩
      intro y hy
      have hPy := ha y hy
      have hky : key y ≤ key a := by
        rcases List.mem_cons.mp hy with r | r
        · subst r; omega
        · rcases hb y r with q | q
          · omega
          · omega
      rcases Nat.lt_or_ge (key y) (key a) with c | c
      · exact Or.inl c
      · exact Or.inr ⟨by omega, hPy⟩

/-- The stable ordering of a list in which `P` relates each element to the later ones:
spans are in decreasing order of `key`, and in the order `P` for equal keys. -/
theorem sortDesc_lex (key : Span → Nat) (P : Span → Span → Prop) (l : List Span)
    (hl : l.Pairwise P) :
    (sortDesc key l).Pairwise (fun x y => key y < key x ∨ (key x = key y ∧ P x y)) := by
  induction l with
  | nil => exact List.Pairwise.nil
  | cons a rest ih =>
    obtain ⟨ha, hrest⟩ := List.pairwise_cons.mp hl
    rw [sortDesc]
    exact insertDesc_lex key P a _ (ih hrest)
      (fun y hy => ha y ((sortDesc_perm key rest).mem_iff.mp hy))

theorem spanInText_length {text : JSString} {s : Span} (h : SpanInText text s) :
    s.original.length = s.end_ - s.start := by
  obtain ⟨h1, h2, h3⟩ := h
  rw [h3, slice_length]
  omega

/-- The spans that are applied, in the order of application: by decreasing start, and for
equal starts the longer span first. -/
theorem applied_order {text : JSString} {l : List Span} (hl : ∀ s ∈ l, SpanInText text s) :
    (sortDesc (fun t => t.start)
      (uniqueFrom [] (sortDesc (fun t => t.original.length) l))).Pairwise
      (fun a b => b.start < a.start ∨ (a.start = b.start ∧ b.end_ < a.end_)) := by
  have hU : ∀ s ∈ uniqueFrom [] (sortDesc (fun t => t.original.length) l), s ∈ l :=
    fun s hs => (sortDesc_perm _ l).mem_iff.mp ((uniqueFrom_sublist _ _).subset hs)
  have h1 : (uniqueFrom [] (sortDesc (fun t => t.original.length) l)).Pairwise
      (fun a b => b.original.length ≤ a.original.length ∧
        positionKey a ≠ positionKey b) :=
    ((sortDesc_sorted _ l).sublist (uniqueFrom_sublist _ _)).and (uniqueFrom_distinct _ _)
  have h2 := sortDesc_lex (fun t => t.start) _ _ h1
  refine List.Pairwise.imp_of_mem ?_ h2
  intro a b ha hb h
  have ia := hl a (hU a ((sortDesc_perm _ _).mem_iff.mp ha))
  have ib := hl b (hU b ((sortDesc_perm _ _).mem_iff.mp hb))
  rcases h with h | ⟨e, hlen, hne⟩
  · exact Or.inl h
  · right
    refine ⟨e, ?_⟩
    rw [spanInText_length ia, spanInText_length ib] at hlen
    have hne' : ¬ (a.start = b.start ∧ a.end_ = b.end_) :=
      fun c => hne ((positionKey_eq_iff a b).mpr c)
    have := ia.1
    have := ib.1
    simp only at e
    by_contra hc
    apply hne'
    exact ⟨e, by omega⟩

theorem mem_unique_sorted_iff {text : JSString} {l : List Span}
    (hl : ∀ s ∈ l, SpanInText text s) (s : Span) :
    s ∈ uniqueFrom [] (sortDesc (fun t => t.original.length) l) ↔
      l.find? (fun t => positionKey t = positionKey s) = some s := by
  have hf : (sortDesc (fun t => t.original.length) l).find?
        (fun t => positionKey t = positionKey s) =
      l.find? (fun t => positionKey t = positionKey s) := by
    apply find?_eq_of_filter_eq
    apply filter_sortDesc
    intro x hx y hy px py
    simp only [decide_eq_true_eq] at px py
    have e := (positionKey_eq_iff x y).mp (px.trans py.symm)
    show x.original.length = y.original.length
    rw [spanInText_length (hl x hx), spanInText_length (hl y hy), e.1, e.2]
  constructor
  · intro h
    rw [← hf]
    exact (uniqueFrom_first h).1
  · intro h
    rw [← hf] at h
    exact mem_uniqueFrom_of_find? h

/-- Claim C18: for pooled spans as the matchers emit them (each lies in the text and its
`original` is the substring it covers), the translation computed from the pool (sort by
decreasing length, deduplication, sort by decreasing start, substitution) is the same for
every reordering of the pool that keeps the relative order of the spans with identical
`(start, end)`; the spans are applied by decreasing start, and for equal starts the longer
span first. -/
theorem translation_independent_of_pool_order (text : JSString) (l l' : List Span)
    (hl : ∀ s ∈ l, SpanInText text s) (hperm : l'.Perm l)
    (hstable : ∀ s : Span, l'.filter (fun t => t.start = s.start ∧ t.end_ = s.end_) =
      l.filter (fun t => t.start = s.start ∧ t.end_ = s.end_)) :
    applyTranslations text (sortDesc (fun t => t.original.length) l') =
      applyTranslations text (sortDesc (fun t => t.original.length) l) ∧
    (sortDesc (fun t => t.start)
      (uniqueFrom [] (sortDesc (fun t => t.original.length) l))).Pairwise
      (fun a b => b.start < a.start ∨ (a.start = b.start ∧ b.end_ < a.end_)) := by
  have hl' : ∀ s ∈ l', SpanInText text s := fun s hs => hl s (hperm.mem_iff.mp hs)
  refine ⟨?_, applied_order hl⟩
  have hmem : ∀ s, s ∈ uniqueFrom [] (sortDesc (fun t => t.original.length) l') ↔
      s ∈ uniqueFrom [] (sortDesc (fun t => t.original.length) l) := by
    intro s
    rw [mem_unique_sorted_iff hl' s, mem_unique_sorted_iff hl s, samePosition_eq]
    rw [find?_eq_of_filter_eq (hstable s)]
  have nd : ∀ m : List Span, (uniqueFrom [] m).Nodup := fun m =>
    (uniqueFrom_distinct [] m).imp (fun h e => h (by rw [e]))
  have hp : (uniqueFrom [] (sortDesc (fun t => t.original.length) l')).Perm
      (uniqueFrom [] (sortDesc (fun t => t.original.length) l)) :=
    (List.perm_ext_iff_of_nodup (nd _) (nd _)).mpr hmem
  have hp2 : (sortDesc (fun t => t.start)
        (uniqueFrom [] (sortDesc (fun t => t.original.length) l'))).Perm
      (sortDesc (fun t => t.start)
        (uniqueFrom [] (sortDesc (fun t => t.original.length) l))) :=
    ((sortDesc_perm _ _).trans hp).trans (sortDesc_perm _ _).symm
  haveI : IsAntisymm Span
      (fun a b => b.start < a.start ∨ (a.start = b.start ∧ b.end_ < a.end_)) :=
    ⟨fun a b h1 h2 => by
      exfalso
      rcases h1 with h1 | ⟨h1, h1'⟩ <;> rcases h2 with h2 | ⟨h2, h2'⟩ <;> omega⟩
  have heq := List.eq_of_perm_of_sorted hp2 (applied_order hl') (applied_order hl)
  unfold applyTranslations
  simp only
  rw [heq]

/-- Witness for C18: a pool with a duplicate at offsets 0 to 3, reordered without swapping
the two duplicates. -/
theorem translation_independent_of_pool_order_witness :
    applyTranslations (str "one two")
      (sortDesc (fun t => t.original.length)
        [⟨4, 7, str "two", str "2"⟩, ⟨0, 3, str "one", str "1"⟩,
          ⟨0, 3, str "one", str "uno"⟩]) =
    applyTranslations (str "one two")
      (sortDesc (fun t => t.original.length)
        [⟨0, 3, str "one", str "1"⟩, ⟨0, 3, str "one", str "uno"⟩,
          ⟨4, 7, str "two", str "2"⟩]) :=
  (translation_independent_of_pool_order (str "one two")
    [⟨0, 3, str "one", str "1"⟩, ⟨0, 3, str "one", str "uno"⟩, ⟨4, 7, str "two", str "2"⟩]
    [⟨4, 7, str "two", str "2"⟩, ⟨0, 3, str "one", str "1"⟩, ⟨0, 3, str "one", str "uno"⟩]
    (by decide) (by decide)
    (by
      intro s
      by_cases h0 : (0 = s.start ∧ 3 = s.end_)
      · have h4 : ¬ (4 = s.start ∧ 7 = s.end_) := fun h => by omega
        simp [List.filter_cons, h0, h4]
      · simp [List.filter_cons, h0])).1

/-! ## Overlapping spans -/

/-- Claim C14 fails on the code: with the terms-only keys "trash" and "trash can" the text
"trash can" yields the two overlapping spans 0 to 5 and 0 to 9; both are applied and the
second replacement cuts into the markup of the first. -/
theorem translate_nested_keys_overlap :
    WellFormed nestedDictionaries ∧
    pooled plainTable nestedDictionaries 10 (str "trash can")
      (str "american-to-british" = str "american-to-british") =
      some [⟨0, 5, str "trash", str "rubbish"⟩, ⟨0, 9, str "trash can", str "bin"⟩] ∧
    translate plainTable nestedDictionaries 10 (some (str "trash can"))
      (some (str "american-to-british")) =
      some (.success (str "trash can")
        (str "<span class=\"highlight\">rubbish</span> class=\"highlight\">bin</span>")) := by
  decide

/-! ## Inverting a dictionary -/

theorem mem_insertNew_self (key value : JSString) (obj : Dict) :
    (key, value) ∈ insertNew key value obj := by
  induction obj with
  | nil => simp [insertNew]
  | cons a rest ih =>
    obtain ⟨k, v⟩ := a
    rw [insertNew]
    split
    · exact List.mem_cons_self _ _
    · exact List.mem_cons_of_mem _ ih

theorem mem_insertNew_of_mem {key value : JSString} {obj : Dict} {e : JSString × JSString}
    (h : e ∈ obj) : e ∈ insertNew key value obj := by
  induction obj with
  | nil => cases h
  | cons a rest ih =>
    obtain ⟨k, v⟩ := a
    rw [insertNew]
    split
    · exact List.mem_cons_of_mem _ h
    · rcases List.mem_cons.mp h with r | r
      · exact r ▸ List.mem_cons_self _ _
      · exact List.mem_cons_of_mem _ (ih r)

theorem insertNew_perm (key value : JSString) (obj : Dict) :
    (insertNew key value obj).Perm ((key, value) :: obj) := by
  induction obj with
  | nil => exact List.Perm.refl _
  | cons a rest ih =>
    obtain ⟨k, v⟩ := a
    rw [insertNew]
    split
    · exact List.Perm.refl _
    · exact (List.Perm.cons _ ih).trans (List.Perm.swap _ _ _)

/-- An assignment keeps the properties with another key. -/
theorem mem_assign_of_mem {key value : JSString} {obj : Dict} {e : JSString × JSString}
    (h : e ∈ obj) (hk : e.1 ≠ key) : e ∈ assign key value obj := by
  unfold assign
  split
  · exact h
  · split
    · exact List.mem_map.mpr ⟨e, h, by simp [hk]⟩
    · exact mem_insertNew_of_mem h

/-- After an assignment to a key other than `__proto__` the object has the property. -/
theorem mem_assign_self {key : JSString} (value : JSString) (obj : Dict)
    (hk : key ≠ str "__proto__") : (key, value) ∈ assign key value obj := by
  unfold assign
  rw [if_neg hk]
  split
  · rename_i hany
    obtain ⟨e, he, hek⟩ := List.any_eq_true.mp hany
    simp only [decide_eq_true_eq] at hek
    exact List.mem_map.mpr ⟨e, he, by simp [hek]⟩
  · exact mem_insertNew_self key value obj

theorem keys_assign_of_present (key value : JSString) (obj : Dict) :
    (obj.map (fun e => if e.1 = key then (e.1, value) else e)).map Prod.fst =
      obj.map Prod.fst := by
  rw [List.map_map]
  apply List.map_congr_left
  intro e _
  by_cases c : e.1 = key <;> simp [c]

/-- An assignment keeps the keys of an object pairwise different. -/
theorem uniqueKeys_assign {key value : JSString} {obj : Dict} (h : UniqueKeys obj) :
    UniqueKeys (assign key value obj) := by
  unfold assign
  split
  · exact h
  · split
    · unfold UniqueKeys
      rw [keys_assign_of_present key value obj]
      exact h
    · rename_i hany
      unfold UniqueKeys at h ⊢
      have hp := (insertNew_perm key value obj).map Prod.fst
      rw [hp.nodup_iff, List.map_cons]
      refine List.nodup_cons.mpr ⟨?_, h⟩
      intro hm
      apply hany
      obtain ⟨e, he, hek⟩ := List.mem_map.mp hm
      exact List.any_eq_true.mpr ⟨e, he, by simpa using hek⟩

theorem uniqueKeys_foldl_assign (dict acc : Dict) (h : UniqueKeys acc) :
    UniqueKeys (dict.foldl (fun reversed e => assign e.2 e.1 reversed) acc) := by
  induction dict generalizing acc with
  | nil => exact h
  | cons a rest ih => exact ih _ (uniqueKeys_assign h)

/-- The inverted dictionary has one entry per key. -/
theorem uniqueKeys_reverseDict (dict : Dict) : UniqueKeys (reverseDict dict) :=
  uniqueKeys_foldl_assign dict [] List.nodup_nil

theorem mem_foldl_assign_of_mem {dict acc : Dict} {e : JSString × JSString}
    (h : e ∈ acc) (hd : ∀ x ∈ dict, x.2 ≠ e.1) :
    e ∈ dict.foldl (fun reversed e => assign e.2 e.1 reversed) acc := by
  induction dict generalizing acc with
  | nil => exact h
  | cons a rest ih =>
    rw [List.foldl_cons]
    apply ih
    · exact mem_assign_of_mem h (fun c => hd a (List.mem_cons_self _ _) c.symm)
    · exact fun x hx => hd x (List.mem_cons_of_mem _ hx)

/-- The inverted dictionary maps a value other than `__proto__` to the last key that has
this value. -/
theorem mem_reverseDict_of_last {before after : Dict} {k v : JSString}
    (hv : v ≠ str "__proto__") (hafter : ∀ x ∈ after, x.2 ≠ v) :
    (v, k) ∈ reverseDict (before ++ (k, v) :: after) := by
  unfold reverseDict
  rw [List.foldl_append, List.foldl_cons]
  exact mem_foldl_assign_of_mem (mem_assign_self k _ hv) hafter

/-- With unique values, the inverted dictionary has the swapped entry of every entry whose
value is not `__proto__`. -/
theorem mem_reverseDict_of_mem {dict : Dict} (hu : UniqueValues dict) {k v : JSString}
    (h : (k, v) ∈ dict) (hv : v ≠ str "__proto__") : (v, k) ∈ reverseDict dict := by
  obtain ⟨before, after, rfl⟩ := List.append_of_mem h
  apply mem_reverseDict_of_last hv
  intro x hx e
  unfold UniqueValues at hu
  rw [List.map_append, List.map_cons] at hu
  have := (List.nodup_cons.mp (List.nodup_append.mp hu).2.1).1
  exact this (List.mem_map.mpr ⟨x, hx, e⟩)

theorem exists_last_with_value {dict : Dict} {v : JSString} (h : v ∈ dict.map Prod.snd) :
    ∃ before k after, dict = before ++ (k, v) :: after ∧ ∀ x ∈ after, x.2 ≠ v := by
  induction dict with
  | nil => cases h
  | cons a rest ih =>
    by_cases hr : v ∈ rest.map Prod.snd
    · obtain ⟨before, k, after, e, ha⟩ := ih hr
      exact ⟨a :: before, k, after, by rw [e]; rfl, ha⟩
    · obtain ⟨k, w⟩ := a
      rw [List.map_cons, List.mem_cons] at h
      rcases h with r | r
      · subst r
        refine ⟨[], k, rest, rfl, ?_⟩
        intro x hx e
        exact hr (List.mem_map.mpr ⟨x, hx, e⟩)
      · exact absurd r hr

theorem key_ne_proto_of_mem_assign {key value : JSString} {obj : Dict}
    (h : ∀ e ∈ obj, e.1 ≠ str "__proto__") :
    ∀ e ∈ assign key value obj, e.1 ≠ str "__proto__" := by
  intro e he
  by_cases hk : key = str "__proto__"
  · unfold assign at he
    rw [if_pos hk] at he
    exact h e he
  · rcases mem_assign he with r | r
    · rw [r]; exact hk
    · exact h e r

theorem key_ne_proto_of_mem_foldl (dict acc : Dict)
    (h : ∀ e ∈ acc, e.1 ≠ str "__proto__") :
    ∀ e ∈ dict.foldl (fun reversed e => assign e.2 e.1 reversed) acc,
      e.1 ≠ str "__proto__" := by
  induction dict generalizing acc with
  | nil => exact h
  | cons a rest ih => exact ih _ (key_ne_proto_of_mem_assign h)

/-- The inverted dictionary never has the key `__proto__`. -/
theorem key_ne_proto_of_mem_reverseDict {dict : Dict} {e : JSString × JSString}
    (h : e ∈ reverseDict dict) : e.1 ≠ str "__proto__" :=
  key_ne_proto_of_mem_foldl dict [] (fun _ h => absurd h (List.not_mem_nil _)) e h

/-- The keys of the inverted dictionary are the values of the dictionary other than
`__proto__`. -/
theorem mem_keys_reverseDict_iff (dict : Dict) (v : JSString) :
    v ∈ (reverseDict dict).map Prod.fst ↔ v ∈ dict.map Prod.snd ∧ v ≠ str "__proto__" := by
  constructor
  · intro h
    obtain ⟨e, he, rfl⟩ := List.mem_map.mp h
    exact ⟨List.mem_map.mpr ⟨(e.2, e.1), mem_reverseDict he, rfl⟩,
      key_ne_proto_of_mem_reverseDict he⟩
  · rintro ⟨h, hv⟩
    obtain ⟨before, k, after, rfl, ha⟩ := exists_last_with_value h
    exact List.mem_map.mpr ⟨(v, k), mem_reverseDict_of_last hv ha, rfl⟩

/-- The number of entries of the inverted dictionary is the number of distinct values other
than `__proto__`. -/
theorem length_reverseDict (dict : Dict) :
    (reverseDict dict).length =
      ((dict.map Prod.snd).filter (fun v => v ≠ str "__proto__")).dedup.length := by
  have hp : ((reverseDict dict).map Prod.fst).Perm
      ((dict.map Prod.snd).filter (fun v => v ≠ str "__proto__")).dedup := by
    apply (List.perm_ext_iff_of_nodup (uniqueKeys_reverseDict dict) (List.nodup_dedup _)).mpr
    intro v
    rw [mem_keys_reverseDict_iff, List.mem_dedup, List.mem_filter]
    simp
  rw [← hp.length_eq, List.length_map]

/-- The inverse of a dictionary with unique values, none of them `__proto__`: the swapped
entries, as many as the dictionary has. -/
theorem reverseDict_inverts {dict : Dict} (hu : UniqueValues dict)
    (hp : ∀ e ∈ dict, e.2 ≠ str "__proto__") :
    (∀ k v, (v, k) ∈ reverseDict dict ↔ (k, v) ∈ dict) ∧
    (reverseDict dict).length = dict.length := by
  refine ⟨fun k v => ⟨fun h => mem_reverseDict h,
    fun h => mem_reverseDict_of_mem hu h (hp _ h)⟩, ?_⟩
  rw [length_reverseDict]
  have hf : (dict.map Prod.snd).filter (fun v => v ≠ str "__proto__") = dict.map Prod.snd := by
    apply List.filter_eq_self.mpr
    intro v hv
    obtain ⟨e, he, rfl⟩ := List.mem_map.mp hv
    simpa using hp e he
  rw [hf, List.Nodup.dedup hu, List.length_map]

theorem uniqueValues_reverseDict {dict : Dict} (hk : UniqueKeys dict)
    (hu : UniqueValues dict) (hp : ∀ e ∈ dict, e.2 ≠ str "__proto__") :
    UniqueValues (reverseDict dict) := by
  have h1 : (reverseDict dict).Nodup := List.Nodup.of_map _ (uniqueKeys_reverseDict dict)
  have h2 : (dict.map Prod.swap).Nodup := by
    apply List.Nodup.of_map Prod.fst
    rw [List.map_map]
    exact hu
  have h3 : (reverseDict dict).Perm (dict.map Prod.swap) := by
    apply (List.perm_ext_iff_of_nodup h1 h2).mpr
    rintro ⟨v, k⟩
    rw [(reverseDict_inverts hu hp).1 k v]
    constructor
    · intro h
      exact List.mem_map.mpr ⟨(k, v), h, rfl⟩
    · intro h
      obtain ⟨e, he, hs⟩ := List.mem_map.mp h
      have : e = (k, v) := by
        rw [← Prod.swap_swap e, hs]; rfl
      rw [← this]; exact he
  unfold UniqueValues
  rw [(h3.map Prod.snd).nodup_iff, List.map_map]
  exact hk

/-- Inverting twice gives back the entries of a dictionary with unique keys and unique
values in which neither a key nor a value is `__proto__`. -/
theorem reverseDict_involutive {dict : Dict} (hk : UniqueKeys dict) (hu : UniqueValues dict)
    (hpk : ∀ e ∈ dict, e.1 ≠ str "__proto__") (hpv : ∀ e ∈ dict, e.2 ≠ str "__proto__") :
    (reverseDict (reverseDict dict)).Perm dict := by
  have hu' := uniqueValues_reverseDict hk hu hpv
  have hp' : ∀ e ∈ reverseDict dict, e.2 ≠ str "__proto__" :=
    fun e he => hpk _ (mem_reverseDict he)
  apply (List.perm_ext_iff_of_nodup
    (List.Nodup.of_map _ (uniqueKeys_reverseDict _)) (List.Nodup.of_map _ hk)).mpr
  rintro ⟨k, v⟩
  rw [(reverseDict_inverts hu' hp').1 v k, (reverseDict_inverts hu hpv).1 k v]

/-- Claim C11 fails on the code for the value `__proto__`: the dictionary with the single
entry "x" -> "__proto__" has unique keys and values, and its inverse is empty, because the
assignment `reversed["__proto__"] = "x"` calls the inherited setter, which ignores a string;
inverting a dictionary with the key `__proto__` twice loses that entry. -/
theorem reverseDict_proto_value :
    UniqueKeys [(str "x", str "__proto__")] ∧ UniqueValues [(str "x", str "__proto__")] ∧
    reverseDict [(str "x", str "__proto__")] = [] ∧
    (reverseDict [(str "x", str "__proto__")]).length ≠ [(str "x", str "__proto__")].length ∧
    reverseDict (reverseDict [(str "__proto__", str "x")]) = [] := by
  decide

/-- Claim C19 fails on the code for the value `__proto__`: two keys map to `__proto__` and a
third key maps to "x"; the inverted mapping has no entry for `__proto__` and one entry in
all, although the mapping has two distinct values (the same defect as for claim C11); a
collision on another value keeps the last key. -/
theorem reverseDict_proto_collision :
    reverseDict [(str "a", str "__proto__"), (str "b", str "__proto__"), (str "c", str "x")] =
      [(str "x", str "c")] ∧
    ([(str "a", str "__proto__"), (str "b", str "__proto__"), (str "c", str "x")].map
      Prod.snd).dedup.length = 2 ∧
    reverseDict [(str "a", str "v"), (str "b", str "v"), (str "c", str "x")] =
      [(str "v", str "b"), (str "x", str "c")] := by
  decide

/-! ## Spelling round trip -/

theorem slice_zero_length (text : JSString) : slice text 0 text.length = text := by
  simp [slice]

/-- A text that is one whole-word occurrence of a key yields the span that covers it. -/
theorem translateTerms_isolated {tbl : Nat → List Nat} {fuel : Nat} {text : JSString}
    {dict : Dict} (hd : NonEmptyKeys dict) (hf : text.length < fuel) {k v : JSString}
    (hmem : (k, v) ∈ dict) (ho : WholeWordOccurrence tbl text k 0)
    (hlen : text.length = k.length) :
    ∃ spans, translateTerms tbl fuel text dict = some spans ∧
      (⟨0, text.length, text, v⟩ : Span) ∈ spans := by
  obtain ⟨spans, hs⟩ := translateTerms_returns tbl fuel text dict hd hf
  refine ⟨spans, hs, ?_⟩
  rcases translateTerms_complete hd hs hmem ho with h | ⟨j, hj, -⟩
  · simp only [Nat.zero_add, ← hlen, slice_zero_length] at h
    exact h
  · omega

theorem exec_eq_none {tbl : Nat → List Nat} {re : RegExp} {text : JSString}
    (h : ∀ i, i ≤ text.length → matchNodes tbl re.ignoreCase text re.nodes i [] [] = none)
    (lastIndex : Nat) : exec tbl re text lastIndex = none := by
  cases he : exec tbl re text lastIndex with
  | none => rfl
  | some r =>
    obtain ⟨j, st⟩ := r
    obtain ⟨-, h2, h3, -⟩ := exec_some he
    rw [h j h2] at h3
    cases h3

/-- A pattern without a match in the text makes the scanning loop return no span. -/
theorem execLoop_no_match {tbl : Nat → List Nat} {re : RegExp} {text : JSString}
    (mk : Nat → MatchState → Option Span)
    (h : ∀ i, i ≤ text.length → matchNodes tbl re.ignoreCase text re.nodes i [] [] = none)
    (fuel : Nat) (hf : 1 ≤ fuel) : execLoop tbl re text mk fuel 0 = some [] := by
  obtain ⟨f, rfl⟩ : ∃ f, fuel = f + 1 := ⟨fuel - 1, by omega⟩
  rw [execLoop, exec_eq_none h]

/-- A pattern whose only match in the text is at offset 0 makes the scanning loop return
the one span of that match. -/
theorem execLoop_single {tbl : Nat → List Nat} {re : RegExp} {text : JSString}
    {mk : Nat → MatchState → Option Span} {st : MatchState} {s : Span}
    (h0 : matchNodes tbl re.ignoreCase text re.nodes 0 [] [] = some st)
    (hpos : 0 < st.endIndex)
    (h : ∀ i, 0 < i → i ≤ text.length →
      matchNodes tbl re.ignoreCase text re.nodes i [] [] = none)
    (hmk : mk 0 st = some s) (fuel : Nat) (hf : 2 ≤ fuel) :
    execLoop tbl re text mk fuel 0 = some [s] := by
  obtain ⟨f, rfl⟩ : ∃ f, fuel = f + 2 := ⟨fuel - 2, by omega⟩
  have he : exec tbl re text 0 = some (0, st) := by
    unfold exec
    rw [if_neg (by omega), Nat.sub_zero, scanFrom, h0]
  have he2 : exec tbl re text st.endIndex = none := by
    cases hx : exec tbl re text st.endIndex with
    | none => rfl
    | some r =>
      obtain ⟨j, st'⟩ := r
      obtain ⟨a1, a2, a3, -⟩ := exec_some hx
      rw [h j (by omega) a2] at a3
      cases a3
  rw [execLoop, he]
  simp only
  rw [hmk, execLoop, he2]

theorem matchNodes_term_none {tbl : Nat → List Nat} {text key : JSString} {i : Nat}
    (h : ¬ WholeWordOccurrence tbl text key i) :
    matchNodes tbl true text ([Node.wordBoundary] ++ key.map (fun c => Node.atom (.char c)) ++
      [Node.wordBoundary]) i [] [] = none := by
  cases hm : matchNodes tbl true text ([Node.wordBoundary] ++
      key.map (fun c => Node.atom (.char c)) ++ [Node.wordBoundary]) i [] [] with
  | none => rfl
  | some st =>
    obtain ⟨⟨b1, b2, b3⟩, -⟩ := (matchNodes_term_iff tbl text key i st).mp hm
    exact absurd ⟨b2, b1, b3⟩ h

/-- No key of the dictionary occurs in the text: `translateTerms` returns no span. -/
theorem translateTerms_no_occurrence {tbl : Nat → List Nat} {fuel : Nat} {text : JSString}
    {dict : Dict}
    (h : ∀ e ∈ dict, ∀ i, i ≤ text.length → ¬ WholeWordOccurrence tbl text e.1 i)
    (hf : 1 ≤ fuel) : translateTerms tbl fuel text dict = some [] := by
  induction dict with
  | nil => rfl
  | cons e rest ih =>
    obtain ⟨american, british⟩ := e
    rw [translateTerms, termRegExp_eq]
    simp only
    rw [execLoop_no_match (termSpan text british)
      (fun i hi => matchNodes_term_none (h _ (List.mem_cons_self _ _) i hi)) fuel hf,
      ih (fun e he => h e (List.mem_cons_of_mem _ he))]
    rfl

/-- One key of the dictionary occurs in the text, at offset 0 only, and no other entry has
an occurrence: `translateTerms` returns exactly the span of that occurrence. -/
theorem translateTerms_single {tbl : Nat → List Nat} {fuel : Nat} {text : JSString}
    {before after : Dict} {k v : JSString} (hk : k ≠ [])
    (hb : ∀ e ∈ before, ∀ i, i ≤ text.length → ¬ WholeWordOccurrence tbl text e.1 i)
    (ha : ∀ e ∈ after, ∀ i, i ≤ text.length → ¬ WholeWordOccurrence tbl text e.1 i)
    (h0 : WholeWordOccurrence tbl text k 0)
    (h1 : ∀ i, 0 < i → i ≤ text.length → ¬ WholeWordOccurrence tbl text k i)
    (hf : 2 ≤ fuel) :
    translateTerms tbl fuel text (before ++ (k, v) :: after) =
      some [⟨0, k.length, slice text 0 k.length, v⟩] := by
  induction before with
  | nil =>
    rw [List.nil_append, translateTerms, termRegExp_eq]
    simp only
    have hm := (matchNodes_term_iff tbl text k 0 ⟨0 + k.length, [], []⟩).mpr
      ⟨⟨h0.2.1, h0.1, h0.2.2⟩, rfl⟩
    have hs : termSpan text v 0 ⟨0 + k.length, [], []⟩ =
        some ⟨0, k.length, slice text 0 k.length, v⟩ := by
      simp [termSpan]
    rw [@execLoop_single tbl _ text (termSpan text v) ⟨0 + k.length, [], []⟩ _ hm
      (by have := List.length_pos.mpr hk; simpa using this)
      (fun i hi hl => matchNodes_term_none (h1 i hi hl)) hs fuel hf,
      translateTerms_no_occurrence ha (by omega)]
    rfl
  | cons e rest ih =>
    obtain ⟨american, british⟩ := e
    rw [List.cons_append, translateTerms, termRegExp_eq]
    simp only
    rw [execLoop_no_match (termSpan text british)
      (fun i hi => matchNodes_term_none (hb _ (List.mem_cons_self _ _) i hi)) fuel
      (by omega), ih (fun e he => hb e (List.mem_cons_of_mem _ he))]
    rfl

/-- In a dictionary with unique keys, a text that is one isolated occurrence of the key `k`
and in which no other key occurs yields exactly one span. -/
theorem translateTerms_only {tbl : Nat → List Nat} {fuel : Nat} {text : JSString}
    {dict : Dict} {k v : JSString} (hu : UniqueKeys dict) (hmem : (k, v) ∈ dict)
    (h0 : WholeWordOccurrence tbl text k 0) (hlen : text.length = k.length)
    (honly : ∀ e ∈ dict, ∀ i, i ≤ text.length → WholeWordOccurrence tbl text e.1 i →
      e.1 = k ∧ i = 0)
    (hf : 2 ≤ fuel) :
    translateTerms tbl fuel text dict = some [⟨0, text.length, text, v⟩] := by
  have hk : k ≠ [] := by
    intro e
    subst e
    have ht : text = [] := List.length_eq_zero.mp hlen
    subst ht
    have := h0.2.1
    simp [isWordBoundary] at this
  obtain ⟨before, after, rfl⟩ := List.append_of_mem hmem
  unfold UniqueKeys at hu
  rw [List.map_append, List.map_cons] at hu
  have hnd := List.nodup_append.mp hu
  have hkb : ∀ e ∈ before, e.1 ≠ k := by
    intro e he c
    exact hnd.2.2 (List.mem_map.mpr ⟨e, he, c⟩) (List.mem_cons_self _ _)
  have hka : ∀ e ∈ after, e.1 ≠ k := by
    intro e he c
    exact (List.nodup_cons.mp hnd.2.1).1 (List.mem_map.mpr ⟨e, he, c⟩)
  have := @translateTerms_single tbl fuel text before after k v hk
    (fun e he i hi ho => hkb e he
      (honly e (List.mem_append_left _ he) i hi ho).1)
    (fun e he i hi ho => hka e he
      (honly e (List.mem_append_right _ (List.mem_cons_of_mem _ he)) i hi ho).1)
    h0
    (fun i hi hl ho => by
      have := (honly (k, v) (List.mem_append_right _ (List.mem_cons_self _ _)) i hl ho).2
      omega)
    hf
  rw [this, ← hlen, slice_zero_length]

/-- Claim C13, as stated, fails in three ways. The letter case of the occurrence is not
restored: "COLOR" becomes "colour", which becomes "color". A value that ends with a character
that is not a word character is not found as a whole word: "etc" becomes "etc.", which yields
no span. And when another value equals the value up to letter case, the inverted dictionary
has two keys that match it: with "shade" -> "COLOUR" and "color" -> "colour", the text "color"
becomes "colour", which yields two spans at the same offsets, the first with the replacement
"shade", and that one is applied; likewise another key that equals the text up to letter
case yields a second span on the way out. -/
theorem spelling_round_trip_counterexample :
    (UniqueKeys [(str "color", str "colour")] ∧ UniqueValues [(str "color", str "colour")] ∧
     WholeWordOccurrence plainTable (str "COLOR") (str "color") 0 ∧
     translateTerms plainTable 7 (str "COLOR") [(str "color", str "colour")] =
       some [⟨0, 5, str "COLOR", str "colour"⟩] ∧
     translateTerms plainTable 7 (str "colour") (reverseDict [(str "color", str "colour")]) =
       some [⟨0, 6, str "colour", str "color"⟩] ∧
     str "color" ≠ str "COLOR" ∧
     ∀ fuel spans, translateTerms plainTable fuel (str "colour")
       (reverseDict [(str "color", str "colour")]) = some spans →
       ∀ s ∈ spans, s.replacement ≠ str "COLOR") ∧
    (UniqueKeys [(str "etc", str "etc.")] ∧ UniqueValues [(str "etc", str "etc.")] ∧
     WholeWordOccurrence plainTable (str "etc") (str "etc") 0 ∧
     translateTerms plainTable 5 (str "etc") [(str "etc", str "etc.")] =
       some [⟨0, 3, str "etc", str "etc."⟩] ∧
     ∀ fuel spans, translateTerms plainTable fuel (str "etc.")
       (reverseDict [(str "etc", str "etc.")]) = some spans → spans = []) ∧
    (UniqueKeys [(str "shade", str "COLOUR"), (str "color", str "colour")] ∧
     UniqueValues [(str "shade", str "COLOUR"), (str "color", str "colour")] ∧
     WholeWordOccurrence plainTable (str "color") (str "color") 0 ∧
     translateTerms plainTable 7 (str "color")
       [(str "shade", str "COLOUR"), (str "color", str "colour")] =
       some [⟨0, 5, str "color", str "colour"⟩] ∧
     (∀ fuel spans, translateTerms plainTable fuel (str "colour")
       (reverseDict [(str "shade", str "COLOUR"), (str "color", str "colour")]) =
         some spans →
       spans = [⟨0, 6, str "colour", str "shade"⟩, ⟨0, 6, str "colour", str "color"⟩]) ∧
     applyTranslations (str "colour") (sortDesc (fun t => t.original.length)
       [⟨0, 6, str "colour", str "shade"⟩, ⟨0, 6, str "colour", str "color"⟩]) =
       str "<span class=\"highlight\">shade</span>") ∧
    (UniqueKeys [(str "COLOR", str "shade"), (str "color", str "colour")] ∧
     UniqueValues [(str "COLOR", str "shade"), (str "color", str "colour")] ∧
     WholeWordOccurrence plainTable (str "color") (str "color") 0 ∧
     (∀ fuel spans, translateTerms plainTable fuel (str "color")
       [(str "COLOR", str "shade"), (str "color", str "colour")] = some spans →
       spans = [⟨0, 5, str "color", str "shade"⟩, ⟨0, 5, str "color", str "colour"⟩]) ∧
     applyTranslations (str "color") (sortDesc (fun t => t.original.length)
       [⟨0, 5, str "color", str "shade"⟩, ⟨0, 5, str "color", str "colour"⟩]) =
       str "<span class=\"highlight\">shade</span>" ∧
     translateTerms plainTable 7 (str "shade")
       (reverseDict [(str "COLOR", str "shade"), (str "color", str "colour")]) =
       some [⟨0, 5, str "shade", str "COLOR"⟩] ∧
     str "COLOR" ≠ str "color") := by
  have h1 : translateTerms plainTable 7 (str "colour")
      (reverseDict [(str "color", str "colour")]) =
      some [⟨0, 6, str "colour", str "color"⟩] := by decide
  have h2 : translateTerms plainTable 5 (str "etc.") (reverseDict [(str "etc", str "etc.")]) =
      some [] := by decide
  have h3 : translateTerms plainTable 7 (str "colour")
      (reverseDict [(str "shade", str "COLOUR"), (str "color", str "colour")]) =
      some [⟨0, 6, str "colour", str "shade"⟩, ⟨0, 6, str "colour", str "color"⟩] := by
    decide
  have h4 : translateTerms plainTable 7 (str "color")
      [(str "COLOR", str "shade"), (str "color", str "colour")] =
      some [⟨0, 5, str "color", str "shade"⟩, ⟨0, 5, str "color", str "colour"⟩] := by
    decide
  refine ⟨⟨by decide, by decide, by decide, by decide, h1, by decide, ?_⟩,
    ⟨by decide, by decide, by decide, by decide, ?_⟩,
    ⟨by decide, by decide, by decide, by decide, ?_, by decide⟩,
    ⟨by decide, by decide, by decide, ?_, by decide, by decide, by decide⟩⟩
  · intro fuel spans h
    rw [translateTerms_unique h h1]
    decide
  · intro fuel spans h
    exact translateTerms_unique h h2
  · intro fuel spans h
    exact translateTerms_unique h h3
  · intro fuel spans h
    exact translateTerms_unique h h4

/-- Claim C13 (amended): let `d` have unique keys and unique values, let `k -> v` be an entry
of `d` whose value is a whole word on its own (a word boundary at both of its ends) and is
not `__proto__`, and let the text be a single isolated occurrence of `k` in any letter case;
suppose no other key of `d` occurs in the text and no other value of `d` occurs in `v` as a
whole word up to letter case. Then term mode with `d` yields exactly one span, which covers
the text and has the replacement `v`; term mode with `reverseDict d` on `v` yields exactly
one span, which covers `v` and has the replacement `k`, so the composited text is the
highlighted `k`; and `k` is the original text up to letter case. -/
theorem spelling_round_trip (tbl : Nat → List Nat) (fuel : Nat) (d : Dict)
    (k v text : JSString) (hk : UniqueKeys d) (hu : UniqueValues d) (hmem : (k, v) ∈ d)
    (hproto : v ≠ str "__proto__")
    (htext : WholeWordOccurrence tbl text k 0) (hlen : text.length = k.length)
    (hval : isWordBoundary v 0 = true ∧ isWordBoundary v v.length = true)
    (honly : ∀ e ∈ d, ∀ i, i ≤ text.length → WholeWordOccurrence tbl text e.1 i →
      e.1 = k ∧ i = 0)
    (honlyv : ∀ e ∈ d, ∀ i, i ≤ v.length → WholeWordOccurrence tbl v e.2 i →
      e.2 = v ∧ i = 0)
    (hf : 2 ≤ fuel) :
    translateTerms tbl fuel text d = some [⟨0, text.length, text, v⟩] ∧
    translateTerms tbl fuel v (reverseDict d) = some [⟨0, v.length, v, k⟩] ∧
    applyTranslations v (sortDesc (fun t => t.original.length) [⟨0, v.length, v, k⟩]) =
      highlightOpen ++ k ++ highlightClose ∧
    EqualUpToCase tbl text k := by
  refine ⟨translateTerms_only hk hmem htext hlen honly hf, ?_, ?_, ?_⟩
  · apply translateTerms_only (uniqueKeys_reverseDict d)
      (mem_reverseDict_of_mem hu hmem hproto) _ rfl _ hf
    · refine ⟨?_, hval.1, by simpa using hval.2⟩
      simp only [Nat.zero_add, slice_zero_length]
      rfl
    · intro e he i hi ho
      exact honlyv (e.2, e.1) (mem_reverseDict he) i hi ho
  · simp [applyTranslations, sortDesc, insertDesc, uniqueFrom, applyOne]
  · have := htext.1
    simp only [Nat.zero_add, ← hlen, slice_zero_length] at this
    exact this

/-- Witness for C13 (amended): "Color" becomes "colour", which becomes "color". -/
theorem spelling_round_trip_witness :
    translateTerms plainTable 2 (str "Color") [(str "color", str "colour")] =
      some [⟨0, 5, str "Color", str "colour"⟩] ∧
    translateTerms plainTable 2 (str "colour") (reverseDict [(str "color", str "colour")]) =
      some [⟨0, 6, str "colour", str "color"⟩] ∧
    applyTranslations (str "colour") (sortDesc (fun t => t.original.length)
      [⟨0, 6, str "colour", str "color"⟩]) = highlightOpen ++ str "color" ++ highlightClose ∧
    EqualUpToCase plainTable (str "Color") (str "color") :=
  spelling_round_trip plainTable 2 [(str "color", str "colour")] (str "color")
    (str "colour") (str "Color") (by decide) (by decide) (by decide) (by decide) (by decide)
    (by decide) (by decide) (by decide) (by decide) (by decide)

end Translator
